import Mathlib

/-!
Verification development for the `patristic` tree core bundled in
`src/dist/tidytree.js` (the `Branch` data structure, its Newick codec,
distance operations, and the neighbor-joining reconstruction).

The JavaScript `Branch` objects form a mutable graph of nodes carrying
`id`, `length`, `value`, `depth`, `height` and `children`.  Two shallow
embeddings are used:

* a pure tree `Tr` (children only, no parent pointer) for the read-only
  and tree-rebuilding operations (`fixDistances`, `toNewick`,
  `parseNewick`, `getMRCA`/`depthOf`/`distanceBetween`, `consolidate`,
  neighbor joining), where a node of the live graph is addressed by the
  path of child indices leading to it and object identity is tracked by
  the `_guid` field of the source, and

* an explicit store `Store` (association list from node handles to
  records with parent back-references) for the mutating primitives whose
  claims are about aliasing (`addChild`, `excise`, `simplify`, `clone`).

JavaScript numbers are modelled as `Rat`; number formatting/parsing of
branch lengths (`numberToString` / `parseFloat`) is kept as an explicit
codec parameter, since binary floating point formatting has no faithful
shallow embedding.
-/

namespace TidyTree

/-- Pure model of a `Branch` node: `_guid`, `id`, `length`, `value`,
`depth`, `height` and the ordered `children` array (constructor defaults
in the source: `id ""`, `length 0`, `value 1`, `depth 0`, `height 0`,
`children []`). -/
inductive Tr where
  | node (guid : Nat) (id : String) (length : Rat) (value : Rat)
      (depth : Nat) (height : Nat) (children : List Tr)

/-- The `id` field of a node. -/
def Tr.id : Tr → String
  | .node _ i _ _ _ _ _ => i

/-- The `length` field of a node. -/
def Tr.length : Tr → Rat
  | .node _ _ l _ _ _ _ => l

/-- The `value` field of a node. -/
def Tr.value : Tr → Rat
  | .node _ _ _ v _ _ _ => v

/-- The `depth` field of a node. -/
def Tr.depth : Tr → Nat
  | .node _ _ _ _ d _ _ => d

/-- The `height` field of a node. -/
def Tr.height : Tr → Nat
  | .node _ _ _ _ _ h _ => h

/-- The `_guid` field of a node. -/
def Tr.guid : Tr → Nat
  | .node g _ _ _ _ _ _ => g

/-- The `children` array of a node. -/
def Tr.children : Tr → List Tr
  | .node _ _ _ _ _ _ cs => cs

mutual
/-- Boolean equality on trees (all fields). -/
def Tr.beq : Tr → Tr → Bool
  | .node g1 i1 l1 v1 d1 h1 cs1, .node g2 i2 l2 v2 d2 h2 cs2 =>
    g1 == g2 && i1 == i2 && l1 == l2 && v1 == v2 && d1 == d2 && h1 == h2 && Tr.beqL cs1 cs2
/-- Boolean equality on lists of trees. -/
def Tr.beqL : List Tr → List Tr → Bool
  | [], [] => true
  | t :: ts, u :: us => Tr.beq t u && Tr.beqL ts us
  | _, _ => false
end

mutual
theorem Tr.beq_iff : ∀ t u : Tr, Tr.beq t u = true ↔ t = u
  | .node g1 i1 l1 v1 d1 h1 cs1, .node g2 i2 l2 v2 d2 h2 cs2 => by
    simp only [Tr.beq, Bool.and_eq_true, beq_iff_eq, Tr.node.injEq]
    rw [Tr.beqL_iff cs1 cs2]
    tauto
theorem Tr.beqL_iff : ∀ ts us : List Tr, Tr.beqL ts us = true ↔ ts = us
  | [], [] => by simp [Tr.beqL]
  | t :: ts, u :: us => by
    simp only [Tr.beqL, Bool.and_eq_true, List.cons.injEq]
    rw [Tr.beq_iff t u, Tr.beqL_iff ts us]
  | [], _ :: _ => by simp [Tr.beqL]
  | _ :: _, [] => by simp [Tr.beqL]
end

instance : DecidableEq Tr := fun t u =>
  decidable_of_iff (Tr.beq t u = true) (Tr.beq_iff t u)

mutual
/-- Number of nodes of a tree. -/
def Tr.size : Tr → Nat
  | .node _ _ _ _ _ _ cs => 1 + Tr.sizeL cs
/-- Number of nodes of a forest. -/
def Tr.sizeL : List Tr → Nat
  | [] => 0
  | t :: ts => Tr.size t + Tr.sizeL ts
end

/-- Addressing a node of the live graph by the list of child indices
from the root (the pure-model stand-in for a `Branch` reference). -/
def subtreeAt : Tr → List Nat → Option Tr
  | t, [] => some t
  | t, i :: p =>
    match t.children[i]? with
    | some c => subtreeAt c p
    | none => none

/-- A path is valid when it addresses a node. -/
def validPath (t : Tr) (p : List Nat) : Prop := (subtreeAt t p).isSome

/-! ### `fixDistances` (source lines 290-303)

```js
Branch.prototype.fixDistances = function() {
  let maxdepth = 0, root = this.getRoot();
  root.depth = 0;
  this.eachBefore(d => {
    if (d.isRoot()) return;
    d.depth = d.parent.depth + 1;
    if (d.depth > maxdepth) maxdepth = d.depth;
  }).eachAfter(d => {
    d.height = maxdepth - d.depth;
    d.value = d.value + d.children.reduce((a, c) => a + c.value, 0);
  });
  return this;
};
```

Modelled for a call on the root (`this.getRoot() === this`): the
pre-order pass writes `depth` (`0` at the root, `parent.depth + 1`
below) and `maxdepth` ends up as the maximum assigned depth; the
post-order pass writes `height := maxdepth - depth` at every node
(root included) and accumulates `value := value + Σ children.value`
with the children already updated. -/

mutual
/-- Pre-order pass of `fixDistances`: assign `depth := d` here and
`parent.depth + 1` below. -/
def setDepths : Tr → Nat → Tr
  | .node g i l v _ h cs, d => .node g i l v d h (setDepthsL cs (d + 1))
/-- `setDepths` on a forest. -/
def setDepthsL : List Tr → Nat → List Tr
  | [], _ => []
  | t :: ts, d => setDepths t d :: setDepthsL ts d
end

mutual
/-- Maximum `depth` field over a tree (the source tracks it as
`maxdepth` while assigning depths; initial value `0`). -/
def maxDepthT : Tr → Nat
  | .node _ _ _ _ d _ cs => max d (maxDepthTL cs)
/-- Maximum `depth` field over a forest. -/
def maxDepthTL : List Tr → Nat
  | [] => 0
  | t :: ts => max (maxDepthT t) (maxDepthTL ts)
end

mutual
/-- Post-order pass of `fixDistances`: `height := maxdepth - depth`,
`value := value + Σ children.value` with children updated first. -/
def setHV (m : Nat) : Tr → Tr
  | .node g i l v d _ cs =>
    let cs' := setHVL m cs
    .node g i l (v + ((cs'.map Tr.value).sum)) d (m - d) cs'
/-- `setHV` on a forest. -/
def setHVL (m : Nat) : List Tr → List Tr
  | [] => []
  | t :: ts => setHV m t :: setHVL m ts
end

/-- `fixDistances`, called on the root of a tree. -/
def fixDistancesT (t : Tr) : Tr :=
  let t1 := setDepths t 0
  setHV (maxDepthT t1) t1

mutual
/-- Sum of the stored `value` fields over a whole subtree. -/
def valueSum : Tr → Rat
  | .node _ _ _ v _ _ cs => v + valueSumL cs
/-- Sum of the stored `value` fields over a forest. -/
def valueSumL : List Tr → Rat
  | [] => 0
  | t :: ts => valueSum t + valueSumL ts
end

theorem setDepthsL_get? (cs : List Tr) (d : Nat) (i : Nat) :
    (setDepthsL cs d)[i]? = (cs[i]?).map (fun c => setDepths c d) := by
  induction cs generalizing i with
  | nil => simp [setDepthsL]
  | cons t ts ih =>
    cases i with
    | zero => simp [setDepthsL]
    | succ j => simpa [setDepthsL] using ih j

theorem children_setDepths (t : Tr) (d : Nat) :
    (setDepths t d).children = setDepthsL t.children (d + 1) := by
  cases t; simp [setDepths, Tr.children]

theorem subtreeAt_setDepths (t : Tr) (d : Nat) (p : List Nat) :
    subtreeAt (setDepths t d) p = (subtreeAt t p).map (fun s => setDepths s (d + p.length)) := by
  induction p generalizing t d with
  | nil => simp [subtreeAt]
  | cons i p ih =>
    rw [subtreeAt]
    rw [children_setDepths, setDepthsL_get?]
    cases h : t.children[i]? with
    | none => simp [subtreeAt, h]
    | some c =>
      simp only [h, Option.map_some']
      rw [ih c (d + 1)]
      have : d + 1 + p.length = d + (i :: p).length := by
        simp [List.length_cons]; omega
      rw [this, subtreeAt, h]

theorem setHVL_get? (m : Nat) (cs : List Tr) (i : Nat) :
    (setHVL m cs)[i]? = (cs[i]?).map (setHV m) := by
  induction cs generalizing i with
  | nil => simp [setHVL]
  | cons t ts ih =>
    cases i with
    | zero => simp [setHVL]
    | succ j => simpa [setHVL] using ih j

theorem children_setHV (m : Nat) (t : Tr) :
    (setHV m t).children = setHVL m t.children := by
  cases t; simp [setHV, Tr.children]

theorem subtreeAt_setHV (m : Nat) (t : Tr) (p : List Nat) :
    subtreeAt (setHV m t) p = (subtreeAt t p).map (setHV m) := by
  induction p generalizing t with
  | nil => simp [subtreeAt]
  | cons i p ih =>
    rw [subtreeAt]
    rw [children_setHV, setHVL_get?]
    cases h : t.children[i]? with
    | none => simp [subtreeAt, h]
    | some c => simp only [h, Option.map_some']; rw [ih c, subtreeAt, h]

theorem depth_setDepths (t : Tr) (d : Nat) : (setDepths t d).depth = d := by
  cases t; simp [setDepths, Tr.depth]

theorem depth_setHV (m : Nat) (t : Tr) : (setHV m t).depth = t.depth := by
  cases t; simp [setHV, Tr.depth]

theorem height_setHV (m : Nat) (t : Tr) : (setHV m t).height = m - t.depth := by
  cases t; simp [setHV, Tr.height, Tr.depth]

mutual
theorem maxDepthT_setHV (m : Nat) : ∀ t : Tr, maxDepthT (setHV m t) = maxDepthT t
  | .node g i l v d h cs => by
    simp only [setHV, maxDepthT]
    rw [maxDepthTL_setHVL m cs]
theorem maxDepthTL_setHVL (m : Nat) : ∀ cs : List Tr, maxDepthTL (setHVL m cs) = maxDepthTL cs
  | [] => by simp [setHVL]
  | t :: ts => by
    simp only [setHVL, maxDepthTL]
    rw [maxDepthT_setHV m t, maxDepthTL_setHVL m ts]
end

mutual
theorem value_setHV (m : Nat) : ∀ t : Tr, (setHV m t).value = valueSum t
  | .node g i l v d h cs => by
    simp only [setHV, Tr.value, valueSum]
    rw [map_value_setHVL m cs]
theorem map_value_setHVL (m : Nat) : ∀ cs : List Tr, ((setHVL m cs).map Tr.value).sum = valueSumL cs
  | [] => by simp [setHVL, valueSumL]
  | t :: ts => by
    simp only [setHVL, List.map_cons, List.sum_cons, valueSumL]
    rw [value_setHV m t, map_value_setHVL m ts]
end

mutual
theorem valueSum_setDepths : ∀ (t : Tr) (d : Nat), valueSum (setDepths t d) = valueSum t
  | .node g i l v dd h cs, d => by
    simp only [setDepths, valueSum]
    rw [valueSumL_setDepthsL cs (d + 1)]
theorem valueSumL_setDepthsL : ∀ (cs : List Tr) (d : Nat), valueSumL (setDepthsL cs d) = valueSumL cs
  | [], _ => by simp [setDepthsL]
  | t :: ts, d => by
    simp only [setDepthsL, valueSumL]
    rw [valueSum_setDepths t d, valueSumL_setDepthsL ts d]
end

/-- Example tree for the `fixDistances` claims: a root with a leaf `A`
and a child `B` whose only child is the leaf `C`. -/
def demoT7 : Tr :=
  .node 0 "R" 0 1 0 0
    [.node 1 "A" 1 1 0 0 [],
     .node 2 "B" 1 1 0 0 [.node 3 "C" 1 1 0 0 []]]

/-- C7 (corrected): after `fixDistances()` runs from the root, `depth`
is the claimed edge count from the root, but `height` at a node is the
global maximum depth of the whole tree minus the node's depth — not the
maximum depth among the node's own descendants minus its depth.  The
shallow leaf `A` of `demoT7` gets `height 1`, not `0`. -/
theorem c7_counterexample :
    (subtreeAt (fixDistancesT demoT7) [0]).map Tr.height = some 1 ∧
      (subtreeAt demoT7 [0]).map (fun s => s.children.isEmpty) = some true := by
  constructor <;> rfl

/-- C7 (amended): after `fixDistances()` runs from the root, every node
satisfies `depth = number of edges from the root`, and
`height = (maximum depth over the whole tree) - depth`. -/
theorem c7_fixDistances_depth_height (t : Tr) (p : List Nat) (s : Tr)
    (h : subtreeAt (fixDistancesT t) p = some s) :
    s.depth = p.length ∧ s.height = maxDepthT (fixDistancesT t) - p.length := by
  unfold fixDistancesT at h ⊢
  rw [subtreeAt_setHV, subtreeAt_setDepths] at h
  cases h0 : subtreeAt t p with
  | none => rw [h0] at h; simp at h
  | some u =>
    rw [h0] at h
    simp only [Option.map_some', Option.some.injEq] at h
    subst h
    rw [maxDepthT_setHV]
    refine ⟨?_, ?_⟩
    · rw [depth_setHV, depth_setDepths]; omega
    · rw [height_setHV, depth_setDepths]; omega

/-- Closed witness for `c7_fixDistances_depth_height` at the root path
of `demoT7`. -/
theorem c7_fixDistances_depth_height_witness :
    (fixDistancesT demoT7).depth = 0 ∧
      (fixDistancesT demoT7).height = maxDepthT (fixDistancesT demoT7) - 0 :=
  c7_fixDistances_depth_height demoT7 [] (fixDistancesT demoT7) rfl

/-- Example tree for the `value` claims: a root with a single leaf,
both with the constructor-default `value 1`. -/
def demoT8 : Tr := .node 0 "R" 0 1 0 0 [.node 1 "A" 1 1 0 0 []]

/-- C8 (counterexample): `fixDistances` does not fully recompute
`value`: it adds the subtree sum on top of the previously stored value,
so running it twice differs from running it once (`3 ≠ 2` at the root
of the two-node tree). -/
theorem c8_counterexample :
    (fixDistancesT (fixDistancesT demoT8)).value = 3 ∧
      (fixDistancesT demoT8).value = 2 := by
  constructor <;>
    · simp only [demoT8, fixDistancesT, setDepths, setDepthsL, maxDepthT, maxDepthTL,
        setHV, setHVL, Tr.value, List.map_cons, List.map_nil, List.sum_cons, List.sum_nil]
      norm_num

/-- C8 (amended): `fixDistances` accumulates instead of recomputing:
after the call, the `value` at every node equals the sum of the values
stored in its subtree before the call (so each run adds the previous
values in again, and two consecutive runs differ from one). -/
theorem c8_fixDistances_value_accumulates (t : Tr) (p : List Nat) (s u : Tr)
    (h : subtreeAt (fixDistancesT t) p = some s)
    (h0 : subtreeAt t p = some u) :
    s.value = valueSum u := by
  unfold fixDistancesT at h
  rw [subtreeAt_setHV, subtreeAt_setDepths, h0] at h
  simp only [Option.map_some', Option.some.injEq] at h
  subst h
  rw [value_setHV, valueSum_setDepths]

/-- Closed witness for `c8_fixDistances_value_accumulates` at the root
of `demoT8`. -/
theorem c8_fixDistances_value_accumulates_witness :
    (fixDistancesT demoT8).value = valueSum demoT8 :=
  c8_fixDistances_value_accumulates demoT8 [] (fixDistancesT demoT8) demoT8 rfl rfl

/-! ### Distance operations (source lines 172-208, 386-394, 429-439)

A `Branch` reference is modelled as the path of child indices from the
root.  `getDescendants()` (no argument) collects the *strict*
descendants of a node, so `hasDescendant` of the node itself is false;
`getMRCA` climbs `parent` links until `hasDescendant(cousin)` holds and
throws upon leaving the root; `depthOf` walks `parent` links from the
descendant to `this`, accumulating `length`; `distanceBetween(a, b)`
returns `mrca.depthOf(a) + mrca.depthOf(b)` for `mrca = a.getMRCA(b)`. -/

/-- `isPref p q` holds when the path `p` is a (not necessarily strict)
prefix of `q`. -/
def isPref : List Nat → List Nat → Bool
  | [], _ => true
  | _ :: _, [] => false
  | a :: p, b :: q => a == b && isPref p q

/-- `Branch.hasDescendant`: the descendant list excludes the node
itself, so this is the strict-prefix test on paths. -/
def strictPrefixB (p q : List Nat) : Bool :=
  isPref p q && !(p == q)

/-- `Branch.getMRCA` (source lines 429-439): climb from `this` (path
`p`) towards the root while `cousin` (path `q`) is not a strict
descendant; throw (`none`) on leaving the root. -/
def mrcaP (p q : List Nat) : Option (List Nat) :=
  if strictPrefixB p q then some p
  else if h : p = [] then none
  else mrcaP p.dropLast q
termination_by p.length
decreasing_by
  cases p with
  | nil => exact absurd rfl h
  | cons a r => simp

/-- `Branch.depthOf` (source lines 172-184): walk from the descendant
at path `x` up to the node at path `r`, summing `length`; `none` when
the walk leaves the root without reaching `r` or hits a missing node. -/
def depthOfP (t : Tr) (r x : List Nat) : Option Rat :=
  if x = r then some 0
  else if h : x = [] then none
  else
    match subtreeAt t x with
    | none => none
    | some s => (depthOfP t r x.dropLast).map (fun d => d + s.length)
termination_by x.length
decreasing_by
  cases x with
  | nil => exact absurd rfl h
  | cons a y => simp

/-- `Branch.distanceBetween` (source lines 193-196):
`mrca.depthOf(a) + mrca.depthOf(b)` for `mrca = a.getMRCA(b)`. -/
def distanceBetweenP (t : Tr) (p q : List Nat) : Option Rat :=
  match mrcaP p q with
  | none => none
  | some m =>
    match depthOfP t m p, depthOfP t m q with
    | some a, some b => some (a + b)
    | _, _ => none

/-- Longest common prefix of two paths. -/
def lcp : List Nat → List Nat → List Nat
  | a :: p, b :: q => if a = b then a :: lcp p q else []
  | _, _ => []

theorem mrcaP_step_strict {p q : List Nat} (h : strictPrefixB p q = true) :
    mrcaP p q = some p := by
  rw [mrcaP, if_pos h]

theorem mrcaP_step_up {p q : List Nat} (h1 : strictPrefixB p q = false) (h2 : p ≠ []) :
    mrcaP p q = mrcaP p.dropLast q := by
  rw [mrcaP, h1]
  simp [h2]

theorem mrcaP_nil_none {q : List Nat} (h1 : strictPrefixB [] q = false) :
    mrcaP ([] : List Nat) q = none := by
  rw [mrcaP, h1]
  simp

theorem depthOfP_refl (t : Tr) (r : List Nat) : depthOfP t r r = some 0 := by
  rw [depthOfP, if_pos rfl]

theorem depthOfP_step {t : Tr} {r x : List Nat} {s : Tr} (h1 : x ≠ r) (h2 : x ≠ [])
    (h3 : subtreeAt t x = some s) :
    depthOfP t r x = (depthOfP t r x.dropLast).map (fun d => d + s.length) := by
  rw [depthOfP, if_neg h1, dif_neg h2, h3]

theorem isPref_refl (p : List Nat) : isPref p p = true := by
  induction p with
  | nil => rfl
  | cons a p ih => simp [isPref, ih]

theorem isPref_trans {p q r : List Nat} (h1 : isPref p q = true) (h2 : isPref q r = true) :
    isPref p r = true := by
  induction p generalizing q r with
  | nil => rfl
  | cons a p ih =>
    cases q with
    | nil => simp [isPref] at h1
    | cons b q =>
      cases r with
      | nil => simp [isPref] at h2
      | cons c r =>
        simp only [isPref, Bool.and_eq_true, beq_iff_eq] at h1 h2 ⊢
        exact ⟨h1.1.trans h2.1, ih h1.2 h2.2⟩

theorem isPref_antisymm {p q : List Nat} (h1 : isPref p q = true) (h2 : isPref q p = true) :
    p = q := by
  induction p generalizing q with
  | nil => cases q with
    | nil => rfl
    | cons b q => simp [isPref] at h2
  | cons a p ih =>
    cases q with
    | nil => simp [isPref] at h1
    | cons b q =>
      simp only [isPref, Bool.and_eq_true, beq_iff_eq] at h1 h2
      exact by rw [h1.1, ih h1.2 h2.2]

theorem isPref_lcp_left (p q : List Nat) : isPref (lcp p q) p = true := by
  induction p generalizing q with
  | nil => cases q <;> rfl
  | cons a p ih =>
    cases q with
    | nil => rfl
    | cons b q =>
      by_cases h : a = b
      · simp [lcp, h, isPref, ih]
      · simp [lcp, h, isPref]

theorem lcp_comm (p q : List Nat) : lcp p q = lcp q p := by
  induction p generalizing q with
  | nil => cases q <;> rfl
  | cons a p ih =>
    cases q with
    | nil => rfl
    | cons b q =>
      by_cases h : a = b
      · subst h; simp [lcp, ih]
      · have h2 : ¬ b = a := fun hh => h hh.symm
        simp only [lcp, if_neg h, if_neg h2]

theorem isPref_lcp_right (p q : List Nat) : isPref (lcp p q) q = true := by
  rw [lcp_comm]; exact isPref_lcp_left q p

theorem isPref_lcp_greatest {r p q : List Nat} (h1 : isPref r p = true)
    (h2 : isPref r q = true) : isPref r (lcp p q) = true := by
  induction r generalizing p q with
  | nil => cases p <;> cases q <;> rfl
  | cons a r ih =>
    cases p with
    | nil => simp [isPref] at h1
    | cons b p =>
      cases q with
      | nil => simp [isPref] at h2
      | cons c q =>
        simp only [isPref, Bool.and_eq_true, beq_iff_eq] at h1 h2
        obtain ⟨hab, h1t⟩ := h1
        obtain ⟨hac, h2t⟩ := h2
        subst hab
        subst hac
        simp [lcp, isPref, ih h1t h2t]

theorem isPref_dropLast (p : List Nat) : isPref p.dropLast p = true := by
  induction p with
  | nil => rfl
  | cons a p ih =>
    cases p with
    | nil => rfl
    | cons b q => simp [List.dropLast, isPref]; simpa using ih

theorem isPref_of_proper {r p : List Nat} (h : isPref r p = true) (hne : r ≠ p) :
    isPref r p.dropLast = true := by
  induction r generalizing p with
  | nil => cases p <;> rfl
  | cons a r ih =>
    cases p with
    | nil => simp [isPref] at h
    | cons b p =>
      simp only [isPref, Bool.and_eq_true, beq_iff_eq] at h
      obtain ⟨rfl, h2⟩ := h
      have hne2 : r ≠ p := fun hh => hne (by rw [hh])
      cases p with
      | nil =>
        cases r with
        | nil => exact absurd rfl hne2
        | cons c r => simp [isPref] at h2
      | cons c p =>
        have := ih h2 hne2
        simp only [List.dropLast, isPref, Bool.and_eq_true, beq_iff_eq]
        exact ⟨trivial, this⟩

theorem isPref_of_pref_dropLast {r p : List Nat} (h : isPref r p.dropLast = true) :
    isPref r p = true := isPref_trans h (isPref_dropLast p)

theorem dropLast_ne_self {p : List Nat} (h : p ≠ []) : p.dropLast ≠ p := by
  intro hh
  have := congrArg List.length hh
  cases p with
  | nil => exact h rfl
  | cons a r => simp at this

/-- On incomparable paths, `getMRCA` returns the longest common
prefix (auxiliary form with an explicit length bound for the
induction). -/
theorem mrcaP_eq_lcp_aux (n : Nat) :
    ∀ p q : List Nat, p.length ≤ n → isPref p q = false → isPref q p = false →
      mrcaP p q = some (lcp p q) := by
  induction n with
  | zero =>
    intro p q hlen h1 h2
    have : p = [] := by cases p with
      | nil => rfl
      | cons a r => simp at hlen
    subst this
    simp [isPref] at h1
  | succ n ih =>
    intro p q hlen h1 h2
    have hstrict : strictPrefixB p q = false := by
      unfold strictPrefixB
      rw [h1]
      rfl
    have hpnil : p ≠ [] := by
      intro hh; subst hh; simp [isPref] at h1
    rw [mrcaP_step_up hstrict hpnil]
    have hlcp_ne : lcp p q ≠ p := by
      intro hh
      have : isPref p q = true := hh ▸ isPref_lcp_right p q
      rw [h1] at this; cases this
    by_cases hd : isPref p.dropLast q = true
    · -- the walk stops exactly one level up
      have hdq : p.dropLast ≠ q := by
        intro hh
        have : isPref q p = true := hh ▸ isPref_dropLast p
        rw [h2] at this; cases this
      rw [mrcaP_step_strict (by unfold strictPrefixB; simp [hd, hdq])]
      congr 1
      have ha : isPref (lcp p q) p.dropLast = true :=
        isPref_of_proper (isPref_lcp_left p q) hlcp_ne
      have hb : isPref p.dropLast (lcp p q) = true :=
        isPref_lcp_greatest (isPref_dropLast p) hd
      exact (isPref_antisymm ha hb).symm
    · -- keep walking: induction hypothesis one level up
      have hd1 : isPref p.dropLast q = false := by
        cases hq : isPref p.dropLast q
        · rfl
        · exact absurd hq hd
      have hd2 : isPref q p.dropLast = false := by
        cases hq : isPref q p.dropLast
        · rfl
        · have : isPref q p = true := isPref_of_pref_dropLast hq
          rw [h2] at this; cases this
      have hlen2 : p.dropLast.length ≤ n := by
        cases p with
        | nil => exact absurd rfl hpnil
        | cons a r => simp at hlen ⊢; omega
      rw [ih p.dropLast q hlen2 hd1 hd2]
      congr 1
      have ha : isPref (lcp p q) (lcp p.dropLast q) = true :=
        isPref_lcp_greatest
          (isPref_of_proper (isPref_lcp_left p q) hlcp_ne)
          (isPref_lcp_right p q)
      have hb : isPref (lcp p.dropLast q) (lcp p q) = true :=
        isPref_lcp_greatest
          (isPref_of_pref_dropLast (isPref_lcp_left p.dropLast q))
          (isPref_lcp_right p.dropLast q)
      exact isPref_antisymm hb ha

/-- On incomparable paths, `getMRCA` returns the longest common
prefix. -/
theorem mrcaP_eq_lcp {p q : List Nat} (h1 : isPref p q = false) (h2 : isPref q p = false) :
    mrcaP p q = some (lcp p q) :=
  mrcaP_eq_lcp_aux p.length p q le_rfl h1 h2

/-- Example tree for the distance claims: root `R`, leaf `A` of length
`1`, child `B` of length `1` with leaf child `C` of length `2`. -/
def demoT3 : Tr :=
  .node 0 "R" 0 1 0 0
    [.node 1 "A" 1 1 0 0 [],
     .node 2 "B" 1 1 0 0 [.node 3 "C" 2 1 0 0 []]]

theorem distanceBetweenP_some {t : Tr} {p q m : List Nat} {a b : Rat}
    (hm : mrcaP p q = some m) (ha : depthOfP t m p = some a)
    (hb : depthOfP t m q = some b) :
    distanceBetweenP t p q = some (a + b) := by
  unfold distanceBetweenP
  rw [hm]
  show (match depthOfP t m p, depthOfP t m q with
    | some a, some b => some (a + b)
    | _, _ => none) = some (a + b)
  rw [ha, hb]

theorem demoT3_mrca_self : mrcaP [0] [0] = some [] := by
  rw [mrcaP_step_up (by decide) (by decide)]
  exact mrcaP_step_strict (by decide)

theorem demoT3_depth_A : depthOfP demoT3 [] [0] = some 1 := by
  rw [depthOfP_step (by decide) (by decide) (show subtreeAt demoT3 [0] =
    some (.node 1 "A" 1 1 0 0 []) from rfl)]
  rw [show ([0] : List Nat).dropLast = [] from rfl, depthOfP_refl]
  norm_num [Tr.length]

theorem demoT3_depth_B : depthOfP demoT3 [] [1] = some 1 := by
  rw [depthOfP_step (by decide) (by decide) (show subtreeAt demoT3 [1] =
    some (.node 2 "B" 1 1 0 0 [.node 3 "C" 2 1 0 0 []]) from rfl)]
  rw [show ([1] : List Nat).dropLast = [] from rfl, depthOfP_refl]
  norm_num [Tr.length]

theorem demoT3_depth_C_from_B : depthOfP demoT3 [1] [1, 0] = some 2 := by
  rw [depthOfP_step (by decide) (by decide) (show subtreeAt demoT3 [1, 0] =
    some (.node 3 "C" 2 1 0 0 []) from rfl)]
  rw [show ([1, 0] : List Nat).dropLast = [1] from rfl, depthOfP_refl]
  norm_num [Tr.length]

theorem demoT3_depth_C_from_root : depthOfP demoT3 [] [1, 0] = some 3 := by
  rw [depthOfP_step (by decide) (by decide) (show subtreeAt demoT3 [1, 0] =
    some (.node 3 "C" 2 1 0 0 []) from rfl)]
  rw [show ([1, 0] : List Nat).dropLast = [1] from rfl, demoT3_depth_B]
  norm_num [Tr.length]

/-- C3 (counterexample): `distanceBetween(a, a)` is not `0` — on
`demoT3` the distance from the leaf `A` to itself is `2`, because
`hasDescendant` excludes the node itself so `getMRCA(a, a)` is `a`'s
parent — and `distanceBetween` is not symmetric on
ancestor/descendant pairs: `distanceBetween(B, C) = 2` (the MRCA of
`(B, C)` is `B` itself) while `distanceBetween(C, B) = 4` (the MRCA of
`(C, B)` is the root, because `hasDescendant` excludes the node
itself). -/
theorem c3_counterexample :
    ¬ distanceBetweenP demoT3 [0] [0] = some 0 ∧
      ¬ distanceBetweenP demoT3 [1] [1, 0] = distanceBetweenP demoT3 [1, 0] [1] := by
  have e1 : distanceBetweenP demoT3 [0] [0] = some 2 := by
    rw [distanceBetweenP_some demoT3_mrca_self demoT3_depth_A demoT3_depth_A]
    norm_num
  have em2 : mrcaP [1] [1, 0] = some [1] := mrcaP_step_strict (by decide)
  have em3 : mrcaP [1, 0] [1] = some [] := by
    rw [mrcaP_step_up (by decide) (by decide)]
    rw [show ([1, 0] : List Nat).dropLast = [1] from rfl]
    rw [mrcaP_step_up (by decide) (by decide)]
    rw [show ([1] : List Nat).dropLast = [] from rfl]
    exact mrcaP_step_strict (by decide)
  have e2 : distanceBetweenP demoT3 [1] [1, 0] = some 2 := by
    rw [distanceBetweenP_some em2 (depthOfP_refl demoT3 [1]) demoT3_depth_C_from_B]
    norm_num
  have e3 : distanceBetweenP demoT3 [1, 0] [1] = some 4 := by
    rw [distanceBetweenP_some em3 demoT3_depth_C_from_root demoT3_depth_B]
    norm_num
  refine ⟨by rw [e1]; simp, by rw [e2, e3]; simp⟩

/-- C3 (amended): `distanceBetween` is symmetric for incomparable nodes
(neither an ancestor-or-self of the other); for a non-root node `a`,
`distanceBetween(a, a)` is `2 * a.length` rather than `0` (the MRCA of
`a` with itself is `a`'s parent); on the root, `distanceBetween(a, a)`
throws (`getMRCA` walks past the root). -/
theorem c3_distance_symm_and_self (t : Tr) :
    (∀ p q : List Nat, isPref p q = false → isPref q p = false →
        distanceBetweenP t p q = distanceBetweenP t q p) ∧
      (∀ (a : List Nat) (s : Tr), a ≠ [] → subtreeAt t a = some s →
        distanceBetweenP t a a = some (2 * s.length)) ∧
      distanceBetweenP t [] [] = none := by
  refine ⟨?_, ?_, ?_⟩
  · intro p q h1 h2
    unfold distanceBetweenP
    rw [mrcaP_eq_lcp h1 h2, mrcaP_eq_lcp h2 h1, lcp_comm q p]
    show (match depthOfP t (lcp p q) p, depthOfP t (lcp p q) q with
      | some a, some b => some (a + b)
      | _, _ => none) =
      (match depthOfP t (lcp p q) q, depthOfP t (lcp p q) p with
      | some a, some b => some (a + b)
      | _, _ => none)
    cases ha : depthOfP t (lcp p q) p <;> cases hb : depthOfP t (lcp p q) q <;>
      simp [add_comm]
  · intro a s hne hs
    have hmrca : mrcaP a a = some a.dropLast := by
      rw [mrcaP_step_up (by unfold strictPrefixB; simp) hne]
      exact mrcaP_step_strict (by
        unfold strictPrefixB
        simp [isPref_dropLast a, dropLast_ne_self hne])
    have hdepth : depthOfP t a.dropLast a = some s.length := by
      rw [depthOfP_step (fun hh => dropLast_ne_self hne hh.symm) hne hs]
      rw [depthOfP_refl]
      norm_num
    rw [distanceBetweenP_some hmrca hdepth hdepth]
    congr 1
    ring
  · unfold distanceBetweenP
    rw [mrcaP_nil_none (by decide)]

/-- Closed witness for `c3_distance_symm_and_self`: symmetry for the
incomparable leaves `A` and `C` of `demoT3`, and self-distance
`2 * 1` for the leaf `A` of length `1`. -/
theorem c3_distance_symm_and_self_witness :
    distanceBetweenP demoT3 [0] [1, 0] = distanceBetweenP demoT3 [1, 0] [0] ∧
      distanceBetweenP demoT3 [0] [0] = some 2 := by
  constructor
  · exact (c3_distance_symm_and_self demoT3).1 [0] [1, 0] (by decide) (by decide)
  · have h := (c3_distance_symm_and_self demoT3).2.1 [0]
      (.node 1 "A" 1 1 0 0 []) (by decide) rfl
    rw [h]
    norm_num [Tr.length]


/-! ### Store model of the mutable `Branch` graph

An explicit heap for the claims about aliasing and mutation: nodes are
addressed by `Nat` handles (standing for JavaScript object identity),
each holding the mutable fields of a `Branch`.  The heap is an
association list; `updateSt` rewrites the stored record of one
handle. -/

/-- Mutable fields of a `Branch` object in the store model. -/
structure BNode where
  id : String
  length : Rat
  parent : Option Nat
  children : List Nat
  value : Rat := 1
  depth : Nat := 0
  height : Nat := 0
deriving DecidableEq

/-- The heap: handle-to-node association list. -/
abbrev Store := List (Nat × BNode)

/-- Look a handle up in the heap. -/
def lookupSt : Store → Nat → Option BNode
  | [], _ => none
  | (k, v) :: rest, j => if k = j then some v else lookupSt rest j

/-- Rewrite the record stored at one handle. -/
def updateSt : Store → Nat → (BNode → BNode) → Store
  | [], _, _ => []
  | (k1, v) :: rest, k, f =>
    (k1, if k1 = k then f v else v) :: updateSt rest k f

theorem lookupSt_updateSt (st : Store) (k j : Nat) (f : BNode → BNode) :
    lookupSt (updateSt st k f) j =
      if k = j then (lookupSt st j).map f else lookupSt st j := by
  induction st with
  | nil => by_cases h : k = j <;> simp [updateSt, lookupSt, h]
  | cons e rest ih =>
    obtain ⟨k1, v1⟩ := e
    simp only [updateSt, lookupSt]
    by_cases h1 : k1 = j
    · subst h1
      by_cases h2 : k = k1
      · subst h2
        simp
      · have h3 : ¬ k1 = k := fun hh => h2 hh.symm
        simp [h3, h2]
    · simp only [if_neg h1, ih]

theorem lookupSt_of_mem {st : Store} {k : Nat} {nd : BNode}
    (hnodup : (st.map Prod.fst).Nodup) (hmem : (k, nd) ∈ st) :
    lookupSt st k = some nd := by
  induction st with
  | nil => cases hmem
  | cons e rest ih =>
    obtain ⟨k1, v1⟩ := e
    simp only [List.map_cons, List.nodup_cons] at hnodup
    rcases List.mem_cons.mp hmem with h | h
    · cases h
      simp [lookupSt]
    · have hk : k1 ≠ k := by
        intro hh
        subst hh
        exact hnodup.1 (List.mem_map.mpr ⟨(k1, nd), h, rfl⟩)
      simp only [lookupSt, if_neg hk]
      exact ih hnodup.2 h

/-! ### `addChild` with an existing `Branch` (source lines 57-72)

```js
Branch.prototype.addChild = function(data) {
  let c;
  if (data instanceof Branch) {
    c = data;
    c.parent = this;
  } else { ... }
  this.children.push(c);
  return c;
};
```

Attaching an existing node `c` under `p` rewrites `c.parent` and pushes
`c` onto `p.children` — nothing removes `c` from its former parent's
`children` array. -/

/-- `p.addChild(c)` for an existing node `c`. -/
def addChildB (st : Store) (p c : Nat) : Store :=
  let st1 := updateSt st c (fun n => { n with parent := some p })
  updateSt st1 p (fun n => { n with children := n.children ++ [c] })

/-- The bidirectional-consistency invariant of the specification, per
node: if `parent` is set then the parent's `children` contains the
node, and every handle in `children` has its `parent` pointing back. -/
def nodeConsistentB (st : Store) (k : Nat) (nd : BNode) : Bool :=
  (match nd.parent with
   | none => true
   | some pid =>
     match lookupSt st pid with
     | some pn => pn.children.contains k
     | none => false) &&
  nd.children.all (fun cid =>
    match lookupSt st cid with
    | some cn => cn.parent == some k
    | none => false)

/-- Bidirectional consistency of the whole heap. -/
def consistentB (st : Store) : Bool :=
  st.all (fun e => nodeConsistentB st e.1 e.2)

/-- Demo heap for `addChild`: node `0` is a root whose only child is
node `1`; node `2` is a second root with no children. -/
def demoSt2 : Store :=
  [(0, { id := "p", length := 0, parent := none, children := [1] }),
   (1, { id := "c", length := 1, parent := some 0, children := [] }),
   (2, { id := "q", length := 0, parent := none, children := [] })]

/-- C2 (counterexample): `addChild(c)` where `c` already has a parent
leaves the stale entry behind: starting from the consistent heap
`demoSt2`, `q.addChild(c)` (attaching node `1` under node `2`) leaves
node `1` still listed among the children of its former parent `0`
while `1.parent` is now `2`, so bidirectional consistency is broken. -/
theorem c2_counterexample :
    consistentB demoSt2 = true ∧
      consistentB (addChildB demoSt2 2 1) = false ∧
      (lookupSt (addChildB demoSt2 2 1) 0).map BNode.children = some [1] ∧
      (lookupSt (addChildB demoSt2 2 1) 1).map BNode.parent = some (some 2) := by
  refine ⟨by decide, by decide, by decide, by decide⟩

theorem lookupSt_mem {st : Store} {k : Nat} {nd : BNode}
    (h : lookupSt st k = some nd) : (k, nd) ∈ st := by
  induction st with
  | nil => cases h
  | cons e rest ih =>
    obtain ⟨k1, v1⟩ := e
    by_cases h1 : k1 = k
    · subst h1
      rw [lookupSt, if_pos rfl] at h
      injection h with h2
      subst h2
      exact List.mem_cons_self ..
    · rw [lookupSt, if_neg h1] at h
      exact List.mem_cons_of_mem _ (ih h)

theorem keys_updateSt (st : Store) (k : Nat) (f : BNode → BNode) :
    (updateSt st k f).map Prod.fst = st.map Prod.fst := by
  induction st with
  | nil => rfl
  | cons e rest ih =>
    obtain ⟨k1, v1⟩ := e
    simp [updateSt, ih]

/-- Bidirectional consistency in propositional form, for heaps with
unduplicated handles. -/
theorem consistentB_eq_true_iff {st : Store} (hnodup : (st.map Prod.fst).Nodup) :
    consistentB st = true ↔
      ∀ k nd, lookupSt st k = some nd → nodeConsistentB st k nd = true := by
  constructor
  · intro h k nd hlk
    exact (List.all_eq_true.mp h) (k, nd) (lookupSt_mem hlk)
  · intro h
    refine List.all_eq_true.mpr ?_
    intro e he
    exact h e.1 e.2 (lookupSt_of_mem hnodup (by cases e; exact he))

theorem nodeConsistentB_eq_true_iff (st : Store) (k : Nat) (nd : BNode) :
    nodeConsistentB st k nd = true ↔
      (∀ pid, nd.parent = some pid →
        ∃ pn2, lookupSt st pid = some pn2 ∧ k ∈ pn2.children) ∧
      (∀ x ∈ nd.children, ∃ xn, lookupSt st x = some xn ∧ xn.parent = some k) := by
  unfold nodeConsistentB
  rw [Bool.and_eq_true, List.all_eq_true]
  constructor
  · rintro ⟨h1, h2⟩
    constructor
    · intro pid hpid
      simp only [hpid] at h1
      cases hl : lookupSt st pid with
      | none => rw [hl] at h1; cases h1
      | some pn2 =>
        rw [hl] at h1
        exact ⟨pn2, rfl, List.elem_iff.mp h1⟩
    · intro x hx
      have h3 := h2 x hx
      cases hl : lookupSt st x with
      | none => rw [hl] at h3; cases h3
      | some xn =>
        rw [hl] at h3
        exact ⟨xn, rfl, by simpa using h3⟩
  · rintro ⟨h1, h2⟩
    constructor
    · cases hp : nd.parent with
      | none => rfl
      | some pid =>
        obtain ⟨pn2, hl, hmem⟩ := h1 pid hp
        simp only [hl]
        exact List.elem_iff.mpr hmem
    · intro x hx
      obtain ⟨xn, hl, hpar⟩ := h2 x hx
      rw [hl]
      simp [hpar]

/-- C2 (amended): `addChild(c)` preserves bidirectional consistency
precisely when the attached node `c` has no prior parent (a fresh or
isolated root not listed in any `children` array): then after
`p.addChild(c)` the invariant `n.parent` is set iff
`n.parent.children` contains `n` holds throughout the heap.  (The
counterexample shows it is violated whenever `c` already has a
parent.) -/
theorem c2_addChild_consistent (st : Store) (p c : Nat) (pn cn : BNode)
    (hnodup : (st.map Prod.fst).Nodup)
    (hp : lookupSt st p = some pn)
    (hc : lookupSt st c = some cn)
    (hfree : ∀ e ∈ st, c ∉ (Prod.snd e).children)
    (hpc : p ≠ c)
    (hcons : consistentB st = true) :
    consistentB (addChildB st p c) = true := by
  have hfreeL : ∀ x nx, lookupSt st x = some nx → c ∉ nx.children := by
    intro x nx hlx
    exact hfree (x, nx) (lookupSt_mem hlx)
  have hnodup2 : ((addChildB st p c).map Prod.fst).Nodup := by
    unfold addChildB
    rw [keys_updateSt, keys_updateSt]
    exact hnodup
  have horig := (consistentB_eq_true_iff hnodup).mp hcons
  have key : ∀ j, lookupSt (addChildB st p c) j =
      if p = j then (lookupSt st j).map (fun n => { n with children := n.children ++ [c] })
      else if c = j then (lookupSt st j).map (fun n => { n with parent := some p })
      else lookupSt st j := by
    intro j
    unfold addChildB
    rw [lookupSt_updateSt, lookupSt_updateSt]
    by_cases h1 : p = j <;> by_cases h2 : c = j <;>
      simp [h1, h2]
    exact absurd (h1.trans h2.symm) hpc
  rw [consistentB_eq_true_iff hnodup2]
  intro k nd hlk
  rw [key] at hlk
  rw [nodeConsistentB_eq_true_iff]
  by_cases hk1 : p = k
  · -- the new parent node `p`
    subst hk1
    rw [if_pos rfl, hp] at hlk
    simp only [Option.map_some', Option.some.injEq] at hlk
    subst hlk
    have hPp := (nodeConsistentB_eq_true_iff st p pn).mp (horig p pn hp)
    constructor
    · intro pid hpid
      obtain ⟨pn2, hl2, hmem2⟩ := hPp.1 pid hpid
      rw [key pid]
      by_cases e1 : p = pid
      · subst e1
        rw [if_pos rfl, hl2]
        exact ⟨_, rfl, by simp [hmem2]⟩
      · rw [if_neg e1]
        by_cases e2 : c = pid
        · subst e2
          rw [if_pos rfl, hl2]
          exact ⟨_, rfl, by simpa using hmem2⟩
        · rw [if_neg e2, hl2]
          exact ⟨_, rfl, hmem2⟩
    · intro x hx
      simp only [List.mem_append, List.mem_singleton] at hx
      rcases hx with hx | rfl
      · obtain ⟨xn, hlx, hxp⟩ := hPp.2 x hx
        rw [key x]
        by_cases e1 : p = x
        · subst e1
          rw [if_pos rfl, hlx]
          exact ⟨_, rfl, by simpa using hxp⟩
        · rw [if_neg e1]
          by_cases e2 : c = x
          · subst e2
            exact absurd hx (hfreeL p pn hp)
          · rw [if_neg e2, hlx]
            exact ⟨_, rfl, hxp⟩
      · rw [key x, if_neg hpc, if_pos rfl, hc]
        exact ⟨_, rfl, rfl⟩
  · by_cases hk2 : c = k
    · -- the attached node `c`
      subst hk2
      rw [if_neg hk1, if_pos rfl, hc] at hlk
      simp only [Option.map_some', Option.some.injEq] at hlk
      subst hlk
      have hPc := (nodeConsistentB_eq_true_iff st c cn).mp (horig c cn hc)
      constructor
      · intro pid hpid
        simp only at hpid
        cases hpid
        rw [key p, if_pos rfl, hp]
        exact ⟨_, rfl, by simp⟩
      · intro x hx
        simp only at hx
        obtain ⟨xn, hlx, hxp⟩ := hPc.2 x hx
        rw [key x]
        by_cases e1 : p = x
        · subst e1
          rw [if_pos rfl, hlx]
          exact ⟨_, rfl, by simpa using hxp⟩
        · rw [if_neg e1]
          by_cases e2 : c = x
          · subst e2
            exact absurd hx (hfreeL c cn hc)
          · rw [if_neg e2, hlx]
            exact ⟨_, rfl, hxp⟩
    · -- untouched nodes
      rw [if_neg hk1, if_neg hk2] at hlk
      have hPk := (nodeConsistentB_eq_true_iff st k nd).mp (horig k nd hlk)
      constructor
      · intro pid hpid
        obtain ⟨pn2, hl2, hmem2⟩ := hPk.1 pid hpid
        rw [key pid]
        by_cases e1 : p = pid
        · subst e1
          rw [if_pos rfl, hl2]
          exact ⟨_, rfl, by simp [hmem2]⟩
        · rw [if_neg e1]
          by_cases e2 : c = pid
          · subst e2
            rw [if_pos rfl, hl2]
            exact ⟨_, rfl, by simpa using hmem2⟩
          · rw [if_neg e2, hl2]
            exact ⟨_, rfl, hmem2⟩
      · intro x hx
        obtain ⟨xn, hlx, hxp⟩ := hPk.2 x hx
        rw [key x]
        by_cases e1 : p = x
        · subst e1
          rw [if_pos rfl, hlx]
          exact ⟨_, rfl, by simpa using hxp⟩
        · rw [if_neg e1]
          by_cases e2 : c = x
          · subst e2
            exact absurd hx (hfreeL k nd hlk)
          · rw [if_neg e2, hlx]
            exact ⟨_, rfl, hxp⟩

/-- Closed witness for `c2_addChild_consistent`: attaching the isolated
root `2` under node `1` of `demoSt2` keeps the heap consistent. -/
theorem c2_addChild_consistent_witness :
    consistentB (addChildB demoSt2 1 2) = true :=
  c2_addChild_consistent demoSt2 1 2
    { id := "c", length := 1, parent := some 0, children := [] }
    { id := "q", length := 0, parent := none, children := [] }
    (by decide) rfl rfl
    (by decide)
    (by decide) (by decide)

/-! ### `excise` (source lines 272-284)

```js
Branch.prototype.excise = function() {
  if (this.isRoot() && this.children.length > 1) {
    throw new Error("Cannot excise a root Branch with multiple children.");
  }
  this.eachChild(child => {
    child.length += this.length;
    child.parent = this.parent;
    if (!this.isRoot()) this.parent.children.push(child);
  });
  this.parent.children.splice(this.parent.children.indexOf(this), 1);
  this.parent.representing++;
  return this.parent;
};
```

The multi-child-root guard is the first statement, before any
mutation.  On a root with at most one child the guard passes, the
children are reattached with `parent = null`, and the final
`this.parent.children` access dereferences `null` and throws — after
the children have already been mutated. -/

/-- Errors raised (or states reached) by the store-model operations:
`missing` for a dangling handle, `multiChildRoot` for the explicit
`excise` guard, `nullParent` for reading `children` of a `null`
parent, `fuelOut` when the execution fuel runs out. -/
inductive ExErr where
  | missing
  | multiChildRoot
  | nullParent
  | fuelOut
deriving DecidableEq

/-- `Array.prototype.splice(indexOf(x), 1)`: removes the first
occurrence of `x`, or — because `indexOf` returns `-1` when `x` is
absent and `splice(-1, 1)` removes the last element — drops the last
element when `x` is not present. -/
def spliceRemove (l : List Nat) (x : Nat) : List Nat :=
  if x ∈ l then l.erase x else l.dropLast

/-- `Branch.excise` in the store model.  Returns the heap as mutated up
to the point where the source returns or throws, plus the error (if
any). -/
def exciseSt (st : Store) (b : Nat) : Store × Option ExErr :=
  match lookupSt st b with
  | none => (st, some .missing)
  | some nd =>
    if nd.parent = none ∧ 1 < nd.children.length then
      (st, some .multiChildRoot)
    else
      let st1 := nd.children.foldl (fun acc cid =>
        let acc1 := updateSt acc cid (fun cn =>
          { cn with length := cn.length + nd.length, parent := nd.parent })
        match nd.parent with
        | some pid => updateSt acc1 pid (fun pn2 =>
            { pn2 with children := pn2.children ++ [cid] })
        | none => acc1) st
      match nd.parent with
      | none => (st1, some .nullParent)
      | some pid =>
        (updateSt st1 pid (fun pn2 =>
          { pn2 with children := spliceRemove pn2.children b }), none)

/-- C5 (confirmed): calling `excise()` on a root with more than one
child throws the structural error and leaves the heap exactly as it
was — the guard is the first statement of `excise`, before any
mutation. -/
theorem c5_excise_multichild_root (st : Store) (b : Nat) (nd : BNode)
    (h : lookupSt st b = some nd) (hroot : nd.parent = none)
    (hmulti : 1 < nd.children.length) :
    exciseSt st b = (st, some ExErr.multiChildRoot) := by
  unfold exciseSt
  rw [h]
  simp only [if_pos (And.intro hroot hmulti)]

/-- Demo heap for the `excise` guard: root `0` with the two leaf
children `1` and `2`. -/
def demoSt5 : Store :=
  [(0, { id := "r", length := 0, parent := none, children := [1, 2] }),
   (1, { id := "a", length := 1, parent := some 0, children := [] }),
   (2, { id := "b", length := 1, parent := some 0, children := [] })]

/-- Closed witness for `c5_excise_multichild_root` on `demoSt5`. -/
theorem c5_excise_multichild_root_witness :
    exciseSt demoSt5 0 = (demoSt5, some ExErr.multiChildRoot) :=
  c5_excise_multichild_root demoSt5 0
    { id := "r", length := 0, parent := none, children := [1, 2] }
    rfl rfl (by decide)

/-! ### `simplify` (source lines 768-781)

```js
Branch.prototype.simplify = function() {
  this.eachAfter(branch => {
    if(branch.children.length == 1){
      let child = branch.children[0];
      if(child.id == ''){
        child.id = branch.id;
      } else {
        child.id = branch.id + "+" + child.id;
      }
      branch.excise();
    }
  });
  return this.fixDistances();
};
```

`eachAfter` is `this.eachChild(child => child.eachAfter(cb)); cb(this)`
where `eachChild` is `Array.prototype.forEach` over the live `children`
array: the element count is capped by the length at loop entry, and an
index that no longer exists (because `excise` spliced the array) is
skipped.  Unlike `consolidate`, the callback has no `isRoot()` guard,
so the root itself is excised when it ends the pass with exactly one
child — and `excise` on a root dereferences the `null` parent. -/

/-- The callback of `simplify` applied to one node: when the node has
exactly one child, merge the node's `id` into the child's and excise
the node. -/
def simplifyCb (st : Store) (n : Nat) : Store × Option ExErr :=
  match lookupSt st n with
  | none => (st, some .missing)
  | some nd =>
    if nd.children.length = 1 then
      match nd.children with
      | c0 :: _ =>
        let st1 := updateSt st c0 (fun cn =>
          { cn with id := if cn.id = "" then nd.id else nd.id ++ "+" ++ cn.id })
        exciseSt st1 n
      | [] => (st, none)
    else (st, none)

mutual
/-- `branch.eachAfter(cb)` for the `simplify` callback: visit the
children (`forEach` semantics), then run the callback on the node. -/
def simplifyVisit (fuel : Nat) (st : Store) (n : Nat) : Store × Option ExErr :=
  match fuel with
  | 0 => (st, some .fuelOut)
  | fuel + 1 =>
    match lookupSt st n with
    | none => (st, some .missing)
    | some nd =>
      match simplifyLoop fuel st n 0 nd.children.length with
      | (st1, some e) => (st1, some e)
      | (st1, none) => simplifyCb st1 n
termination_by (fuel, 0, 0)
/-- The `forEach` over the live `children` array of `n`: the index
bound `len0` is captured at loop entry; an index at or beyond the
current length is skipped. -/
def simplifyLoop (fuel : Nat) (st : Store) (n : Nat) (k len0 : Nat) : Store × Option ExErr :=
  if k ≥ len0 then (st, none)
  else
    match lookupSt st n with
    | none => (st, some .missing)
    | some nd =>
      match nd.children[k]? with
      | none => simplifyLoop fuel st n (k + 1) len0
      | some cid =>
        match simplifyVisit fuel st cid with
        | (st1, some e) => (st1, some e)
        | (st1, none) => simplifyLoop fuel st1 n (k + 1) len0
termination_by (fuel, 1, len0 - k)
end

/-! Store-level `fixDistances` (source lines 290-303), modelled — like
the pure `fixDistancesT` — for a call on the root: the pre-order pass
assigns `depth` and accumulates `maxdepth`, the post-order pass
assigns `height := maxdepth - depth` and accumulates `value`. -/

/-- Pre-order worklist pass of the store-level `fixDistances`:
assign `depth` to each stacked `(node, depth)` pair, pushing the
children with depth `d + 1`, and accumulate the maximum assigned
depth. -/
def fdDepthsGo : Nat → Store → List (Nat × Nat) → Nat → Store × Nat × Option ExErr
  | 0, st, _, md => (st, md, some .fuelOut)
  | _ + 1, st, [], md => (st, md, none)
  | fuel + 1, st, (n, d) :: rest, md =>
    match lookupSt st n with
    | none => (st, md, some .missing)
    | some nd =>
      fdDepthsGo fuel (updateSt st n (fun m => { m with depth := d }))
        (nd.children.map (fun c => (c, d + 1)) ++ rest) (max md d)

/-- A pending step of the post-order pass: visit a subtree, or write
the `height`/`value` fields of an already-visited node. -/
inductive HVTask where
  | visit (n : Nat)
  | finish (n : Nat)

/-- Post-order worklist pass of the store-level `fixDistances`:
`height := maxdepth - depth` and `value := value + Σ children.value`,
children first. -/
def fdHVGo : Nat → Nat → Store → List HVTask → Store × Option ExErr
  | 0, _, st, _ => (st, some .fuelOut)
  | _ + 1, _, st, [] => (st, none)
  | fuel + 1, md, st, .visit n :: rest =>
    (match lookupSt st n with
     | none => (st, some .missing)
     | some nd => fdHVGo fuel md st (nd.children.map HVTask.visit ++ (.finish n :: rest)))
  | fuel + 1, md, st, .finish n :: rest =>
    (match lookupSt st n with
     | none => (st, some .missing)
     | some nd =>
       let s := (nd.children.map (fun c => ((lookupSt st c).map BNode.value).getD 0)).sum
       fdHVGo fuel md (updateSt st n (fun m =>
         { m with height := md - m.depth, value := m.value + s })) rest)

/-- `Branch.fixDistances` in the store model, called on the root. -/
def fixDistancesSt (fuel : Nat) (st : Store) (r : Nat) : Store × Option ExErr :=
  match fdDepthsGo fuel st [(r, 0)] 0 with
  | (st1, _, some e) => (st1, some e)
  | (st1, md, none) => fdHVGo fuel md st1 [.visit r]

/-- `Branch.simplify`: the post-order pass, then `fixDistances` (which
is never reached when the pass throws). -/
def simplifySt (fuel : Nat) (st : Store) (r : Nat) : Store × Option ExErr :=
  match simplifyVisit fuel st r with
  | (st1, some e) => (st1, some e)
  | (st1, none) => fixDistancesSt fuel st1 r

/-! ### Invariant for the `simplify` non-totality claim

`sInv r st` captures a well-formed tree heap whose root `r` has exactly
one child: the root is parentless with a single child, appears in no
`children` array, every non-root node has a parent reference, and
every handle in a `children` array is allocated. -/

/-- Heap invariant carried through the `simplify` pass. -/
def sInv (r : Nat) (st : Store) : Prop :=
  (∃ rn, lookupSt st r = some rn ∧ rn.parent = none ∧ rn.children.length = 1) ∧
  (∀ e ∈ st, r ∉ (Prod.snd e).children) ∧
  (∀ e ∈ st, Prod.fst e ≠ r → (Prod.snd e).parent ≠ none) ∧
  (∀ e ∈ st, ∀ c ∈ (Prod.snd e).children, (lookupSt st c).isSome)

theorem mem_updateSt {st : Store} {k : Nat} {f : BNode → BNode} {e2 : Nat × BNode}
    (h : e2 ∈ updateSt st k f) : ∃ v, (e2.1, v) ∈ st ∧ (e2.2 = f v ∨ e2.2 = v) := by
  induction st with
  | nil => cases h
  | cons e rest ih =>
    obtain ⟨k1, v1⟩ := e
    simp only [updateSt, List.mem_cons] at h
    rcases h with h | h
    · subst h
      by_cases hk : k1 = k
      · exact ⟨v1, List.mem_cons_self .., by simp [hk]⟩
      · exact ⟨v1, List.mem_cons_self .., by simp [hk]⟩
    · obtain ⟨v, hv, hor⟩ := ih h
      exact ⟨v, List.mem_cons_of_mem _ hv, hor⟩

theorem isSome_lookupSt_updateSt (st : Store) (k j : Nat) (f : BNode → BNode) :
    (lookupSt (updateSt st k f) j).isSome = (lookupSt st j).isSome := by
  rw [lookupSt_updateSt]
  by_cases h : k = j
  · rw [if_pos h]
    cases lookupSt st j <;> rfl
  · rw [if_neg h]

theorem part2_updateSt {r k : Nat} {f : BNode → BNode} {st : Store}
    (h : ∀ e ∈ st, r ∉ (Prod.snd e).children)
    (hf : ∀ m, r ∉ m.children → r ∉ (f m).children) :
    ∀ e ∈ updateSt st k f, r ∉ (Prod.snd e).children := by
  intro e he
  obtain ⟨v, hv, hor⟩ := mem_updateSt he
  rcases hor with h2 | h2 <;> rw [h2]
  · exact hf v (h (e.1, v) hv)
  · exact h (e.1, v) hv

theorem part3_updateSt {r k : Nat} {f : BNode → BNode} {st : Store}
    (h : ∀ e ∈ st, Prod.fst e ≠ r → (Prod.snd e).parent ≠ none)
    (hf : ∀ m, m.parent ≠ none → (f m).parent ≠ none) :
    ∀ e ∈ updateSt st k f, Prod.fst e ≠ r → (Prod.snd e).parent ≠ none := by
  intro e he hne
  obtain ⟨v, hv, hor⟩ := mem_updateSt he
  rcases hor with h2 | h2 <;> rw [h2]
  · exact hf v (h (e.1, v) hv hne)
  · exact h (e.1, v) hv hne

theorem part4_updateSt {k : Nat} {f : BNode → BNode} {st : Store}
    (h : ∀ e ∈ st, ∀ c ∈ (Prod.snd e).children, (lookupSt st c).isSome)
    (hf : ∀ m, (∀ c ∈ m.children, (lookupSt st c).isSome) →
      ∀ c ∈ (f m).children, (lookupSt st c).isSome) :
    ∀ e ∈ updateSt st k f, ∀ c ∈ (Prod.snd e).children,
      (lookupSt (updateSt st k f) c).isSome := by
  intro e he c hc
  rw [isSome_lookupSt_updateSt]
  obtain ⟨v, hv, hor⟩ := mem_updateSt he
  rcases hor with h2 | h2
  · rw [h2] at hc
    exact hf v (h (e.1, v) hv) c hc
  · rw [h2] at hc
    exact h (e.1, v) hv c hc

theorem spliceRemove_subset (l : List Nat) (x : Nat) : spliceRemove l x ⊆ l := by
  unfold spliceRemove
  by_cases h : x ∈ l
  · rw [if_pos h]
    exact (l.erase_sublist x).subset
  · rw [if_neg h]
    exact l.dropLast_sublist.subset

theorem length_spliceRemove {l : List Nat} {x : Nat} (h : l ≠ []) :
    (spliceRemove l x).length = l.length - 1 := by
  unfold spliceRemove
  by_cases hx : x ∈ l
  · rw [if_pos hx, List.length_erase_of_mem hx]
  · rw [if_neg hx, List.length_dropLast]

theorem exciseSt_nonroot_one_child {st : Store} {n p c0 : Nat} {nd : BNode}
    (hnd : lookupSt st n = some nd) (hp : nd.parent = some p)
    (hch : nd.children = [c0]) :
    exciseSt st n =
      (updateSt
        (updateSt
          (updateSt st c0 (fun cn =>
            { cn with length := cn.length + nd.length, parent := some p }))
          p (fun pn2 => { pn2 with children := pn2.children ++ [c0] }))
        p (fun pn2 => { pn2 with children := spliceRemove pn2.children n }), none) := by
  simp only [exciseSt, hnd, hch, hp, List.foldl_cons, List.foldl_nil, List.length_cons,
    List.length_nil]
  norm_num

theorem exciseSt_root_one_child {st : Store} {r c0 : Nat} {rn : BNode}
    (h : lookupSt st r = some rn) (hp : rn.parent = none)
    (hch : rn.children = [c0]) :
    exciseSt st r =
      (updateSt st c0 (fun cn =>
        { cn with length := cn.length + rn.length, parent := none }),
       some ExErr.nullParent) := by
  simp only [exciseSt, h, hch, hp, List.foldl_cons, List.foldl_nil, List.length_cons,
    List.length_nil]
  norm_num

/-- Excising a non-root node that currently has exactly one child
keeps the heap invariant and raises no error. -/
theorem exciseSt_sInv {r n : Nat} {st : Store} {nd : BNode}
    (hI : sInv r st) (hne : n ≠ r)
    (hnd : lookupSt st n = some nd) (hone : nd.children.length = 1) :
    sInv r (exciseSt st n).1 ∧ (exciseSt st n).2 = none := by
  obtain ⟨hroot, hpart2, hpart3, hpart4⟩ := hI
  have hmemn : (n, nd) ∈ st := lookupSt_mem hnd
  obtain ⟨c0, hch⟩ : ∃ c0, nd.children = [c0] := by
    cases hcc : nd.children with
    | nil => rw [hcc] at hone; cases hone
    | cons a l =>
      cases l with
      | nil => exact ⟨a, rfl⟩
      | cons b l2 => rw [hcc] at hone; simp at hone
  obtain ⟨p, hp⟩ : ∃ p, nd.parent = some p := by
    cases hpp : nd.parent with
    | none => exact absurd (hpart3 (n, nd) hmemn hne) (by simp [hpp])
    | some p => exact ⟨p, rfl⟩
  have hc0r : c0 ≠ r := by
    intro hh
    subst hh
    exact hpart2 (n, nd) hmemn (by rw [hch]; exact List.mem_singleton.mpr rfl)
  have hc0dom : (lookupSt st c0).isSome :=
    hpart4 (n, nd) hmemn c0 (by rw [hch]; exact List.mem_singleton.mpr rfl)
  rw [exciseSt_nonroot_one_child hnd hp hch]
  refine ⟨⟨?_, ?_, ?_, ?_⟩, rfl⟩
  · -- the root keeps no parent and exactly one child
    obtain ⟨rn, hrn, hrnp, hrnc⟩ := hroot
    rw [lookupSt_updateSt, lookupSt_updateSt, lookupSt_updateSt]
    by_cases hpr : p = r
    · subst hpr
      rw [if_pos rfl, if_pos rfl, if_neg (fun hh : c0 = p => hc0r hh), hrn]
      refine ⟨_, rfl, ?_, ?_⟩
      · exact hrnp
      · show (spliceRemove (rn.children ++ [c0]) n).length = 1
        rw [length_spliceRemove (by simp)]
        simp [hrnc]
    · rw [if_neg hpr, if_neg hpr, if_neg (fun hh : c0 = r => hc0r hh), hrn]
      exact ⟨rn, rfl, hrnp, hrnc⟩
  · -- the root is still in no children array
    apply part2_updateSt
    · apply part2_updateSt
      · apply part2_updateSt hpart2
        intro m hm
        exact hm
      · intro m hm
        simp only [List.mem_append, List.mem_singleton]
        rintro (hmem | rfl)
        · exact hm hmem
        · exact hc0r rfl
    · intro m hm hmem
      exact hm (spliceRemove_subset _ _ hmem)
  · -- every non-root node still has a parent reference
    apply part3_updateSt
    · apply part3_updateSt
      · apply part3_updateSt hpart3
        intro m hm
        simp
      · intro m hm
        exact hm
    · intro m hm
      exact hm
  · -- every child handle is still allocated
    apply part4_updateSt
    · apply part4_updateSt
      · apply part4_updateSt hpart4
        intro m hm
        exact hm
      · intro m hm
        simp only [List.mem_append, List.mem_singleton]
        rintro c (hmem | rfl)
        · exact hm c hmem
        · rw [isSome_lookupSt_updateSt]
          exact hc0dom
    · intro m hm c hc
      exact hm c (spliceRemove_subset _ _ hc)

/-- Two heaps with the same allocated handles. -/
def sameDom (st st2 : Store) : Prop :=
  ∀ j, (lookupSt st2 j).isSome = (lookupSt st j).isSome

theorem sameDom_refl (st : Store) : sameDom st st := fun _ => rfl

theorem sameDom_trans {st1 st2 st3 : Store} (h1 : sameDom st1 st2)
    (h2 : sameDom st2 st3) : sameDom st1 st3 := fun j => (h2 j).trans (h1 j)

theorem sameDom_updateSt (st : Store) (k : Nat) (f : BNode → BNode) :
    sameDom st (updateSt st k f) := fun j => isSome_lookupSt_updateSt st k j f

theorem exciseSt_sameDom (st : Store) (b : Nat) : sameDom st (exciseSt st b).1 := by
  unfold exciseSt
  cases hb : lookupSt st b with
  | none => exact sameDom_refl st
  | some nd =>
    by_cases hg : nd.parent = none ∧ 1 < nd.children.length
    · simp only [if_pos hg]
      exact sameDom_refl st
    · simp only [if_neg hg]
      cases hp : nd.parent with
      | none =>
        simp only [hp]
        have hfold : ∀ (cs : List Nat) (acc : Store), sameDom acc
            (cs.foldl (fun acc cid => updateSt acc cid (fun cn =>
              { cn with length := cn.length + nd.length, parent := none })) acc) := by
          intro cs
          induction cs with
          | nil => intro acc; exact sameDom_refl acc
          | cons c rest ih =>
            intro acc
            rw [List.foldl_cons]
            exact sameDom_trans (sameDom_updateSt acc c _) (ih _)
        exact hfold nd.children st
      | some pid =>
        simp only [hp]
        have hfold : ∀ (cs : List Nat) (acc : Store), sameDom acc
            (cs.foldl (fun acc cid => updateSt (updateSt acc cid (fun cn =>
              { cn with length := cn.length + nd.length, parent := some pid })) pid
              (fun pn2 => { pn2 with children := pn2.children ++ [cid] })) acc) := by
          intro cs
          induction cs with
          | nil => intro acc; exact sameDom_refl acc
          | cons c rest ih =>
            intro acc
            rw [List.foldl_cons]
            exact sameDom_trans
              (sameDom_trans (sameDom_updateSt acc c _) (sameDom_updateSt _ pid _)) (ih _)
        exact sameDom_trans (hfold nd.children st) (sameDom_updateSt _ pid _)

/-- The `simplify` callback preserves the heap invariant, the set of
allocated handles, and raises no error on a non-root node. -/
theorem simplifyCb_sInv {r n : Nat} {st : Store} (hI : sInv r st) (hne : n ≠ r)
    (hs : (lookupSt st n).isSome) :
    sInv r (simplifyCb st n).1 ∧ (simplifyCb st n).2 = none ∧
      sameDom st (simplifyCb st n).1 := by
  obtain ⟨nd, hnd⟩ := Option.isSome_iff_exists.mp hs
  unfold simplifyCb
  rw [hnd]
  by_cases hlen : nd.children.length = 1
  · obtain ⟨c0, hch⟩ : ∃ c0, nd.children = [c0] := by
      cases hcc : nd.children with
      | nil => rw [hcc] at hlen; cases hlen
      | cons a l =>
        cases l with
        | nil => exact ⟨a, rfl⟩
        | cons b l2 => rw [hcc] at hlen; simp at hlen
    simp only [if_pos hlen, hch]
    have hmemn : (n, nd) ∈ st := lookupSt_mem hnd
    have hc0r : c0 ≠ r := by
      intro hh
      subst hh
      exact hI.2.1 (n, nd) hmemn (by rw [hch]; exact List.mem_singleton.mpr rfl)
    set idf : BNode → BNode := fun cn =>
      { cn with id := if cn.id = "" then nd.id else nd.id ++ "+" ++ cn.id } with hidf
    have hI1 : sInv r (updateSt st c0 idf) := by
      obtain ⟨hroot, hpart2, hpart3, hpart4⟩ := hI
      refine ⟨?_, ?_, ?_, ?_⟩
      · obtain ⟨rn, hrn, hrnp, hrnc⟩ := hroot
        rw [lookupSt_updateSt, if_neg (fun hh : c0 = r => hc0r hh), hrn]
        exact ⟨rn, rfl, hrnp, hrnc⟩
      · exact part2_updateSt hpart2 (fun m hm => hm)
      · exact part3_updateSt hpart3 (fun m hm => hm)
      · exact part4_updateSt hpart4 (fun m hm => hm)
    have hnd1 : ∃ nd1, lookupSt (updateSt st c0 idf) n = some nd1 ∧
        nd1.children.length = 1 := by
      rw [lookupSt_updateSt]
      by_cases hc0n : c0 = n
      · rw [if_pos hc0n, hnd]
        exact ⟨idf nd, rfl, hlen⟩
      · rw [if_neg hc0n, hnd]
        exact ⟨nd, rfl, hlen⟩
    obtain ⟨nd1, hnd1eq, hnd1len⟩ := hnd1
    have hex := exciseSt_sInv hI1 hne hnd1eq hnd1len
    refine ⟨hex.1, hex.2, ?_⟩
    exact sameDom_trans (sameDom_updateSt st c0 idf) (exciseSt_sameDom _ n)
  · simp only [if_neg hlen]
    exact ⟨hI, by trivial, sameDom_refl st⟩

theorem simplifyLoop_done {fuel : Nat} {st : Store} {n k len0 : Nat} (h : k ≥ len0) :
    simplifyLoop fuel st n k len0 = (st, none) := by
  rw [simplifyLoop]
  rw [if_pos h]

theorem simplifyLoop_step_skip {fuel : Nat} {st : Store} {n k len0 : Nat} {nd : BNode}
    (h : ¬ k ≥ len0) (hnd : lookupSt st n = some nd)
    (hck : nd.children[k]? = none) :
    simplifyLoop fuel st n k len0 = simplifyLoop fuel st n (k + 1) len0 := by
  rw [simplifyLoop]
  rw [if_neg h]
  simp only [hnd, hck]

theorem simplifyLoop_step_visit_err {fuel : Nat} {st st1 : Store}
    {n k len0 cid : Nat} {nd : BNode} {e : ExErr}
    (h : ¬ k ≥ len0) (hnd : lookupSt st n = some nd)
    (hck : nd.children[k]? = some cid)
    (hv : simplifyVisit fuel st cid = (st1, some e)) :
    simplifyLoop fuel st n k len0 = (st1, some e) := by
  rw [simplifyLoop]
  rw [if_neg h]
  simp only [hnd, hck, hv]

theorem simplifyLoop_step_visit_ok {fuel : Nat} {st st1 : Store}
    {n k len0 cid : Nat} {nd : BNode}
    (h : ¬ k ≥ len0) (hnd : lookupSt st n = some nd)
    (hck : nd.children[k]? = some cid)
    (hv : simplifyVisit fuel st cid = (st1, none)) :
    simplifyLoop fuel st n k len0 = simplifyLoop fuel st1 n (k + 1) len0 := by
  rw [simplifyLoop]
  rw [if_neg h]
  simp only [hnd, hck, hv]

theorem simplifyVisit_zero (st : Store) (n : Nat) :
    simplifyVisit 0 st n = (st, some .fuelOut) := by
  rw [simplifyVisit]

theorem simplifyVisit_succ_err {st st1 : Store} {n fuel : Nat} {nd : BNode} {e : ExErr}
    (hnd : lookupSt st n = some nd)
    (hl : simplifyLoop fuel st n 0 nd.children.length = (st1, some e)) :
    simplifyVisit (fuel + 1) st n = (st1, some e) := by
  rw [simplifyVisit]
  simp only [hnd, hl]

theorem simplifyVisit_succ_ok {st st1 : Store} {n fuel : Nat} {nd : BNode}
    (hnd : lookupSt st n = some nd)
    (hl : simplifyLoop fuel st n 0 nd.children.length = (st1, none)) :
    simplifyVisit (fuel + 1) st n = simplifyCb st1 n := by
  rw [simplifyVisit]
  simp only [hnd, hl]

theorem simplifySt_err {fuel : Nat} {st st1 : Store} {r : Nat} {e : ExErr}
    (hv : simplifyVisit fuel st r = (st1, some e)) :
    simplifySt fuel st r = (st1, some e) := by
  unfold simplifySt
  simp only [hv]

/-- The `forEach` pass of `simplify` preserves the heap invariant and
can only fail for lack of fuel, as long as the visited children are
non-root nodes (which the invariant guarantees). -/
theorem simplifyLoop_inv {r fuel : Nat}
    (hV : ∀ st n, sInv r st → n ≠ r → (lookupSt st n).isSome →
      sInv r (simplifyVisit fuel st n).1 ∧
      ((simplifyVisit fuel st n).2 = none ∨
        (simplifyVisit fuel st n).2 = some .fuelOut) ∧
      sameDom st (simplifyVisit fuel st n).1) :
    ∀ (j k : Nat) (st : Store) (n len0 : Nat), len0 - k ≤ j → sInv r st →
      (lookupSt st n).isSome →
      sInv r (simplifyLoop fuel st n k len0).1 ∧
      ((simplifyLoop fuel st n k len0).2 = none ∨
        (simplifyLoop fuel st n k len0).2 = some .fuelOut) ∧
      sameDom st (simplifyLoop fuel st n k len0).1 := by
  intro j
  induction j with
  | zero =>
    intro k st n len0 hj hI hs
    rw [simplifyLoop_done (by omega)]
    exact ⟨hI, Or.inl rfl, sameDom_refl st⟩
  | succ j ih =>
    intro k st n len0 hj hI hs
    by_cases hk : k ≥ len0
    · rw [simplifyLoop_done hk]
      exact ⟨hI, Or.inl rfl, sameDom_refl st⟩
    · obtain ⟨nd, hnd⟩ := Option.isSome_iff_exists.mp hs
      cases hck : nd.children[k]? with
      | none =>
        rw [simplifyLoop_step_skip hk hnd hck]
        exact ih (k + 1) st n len0 (by omega) hI hs
      | some cid =>
        have hmemn : (n, nd) ∈ st := lookupSt_mem hnd
        have hcid : cid ∈ nd.children := List.getElem?_mem hck
        have hcidr : cid ≠ r := fun hh => hI.2.1 (n, nd) hmemn (hh ▸ hcid)
        have hcids : (lookupSt st cid).isSome := hI.2.2.2 (n, nd) hmemn cid hcid
        obtain ⟨hV1, hV2, hV3⟩ := hV st cid hI hcidr hcids
        cases hv : simplifyVisit fuel st cid with
        | mk st1 e1 =>
          rw [hv] at hV1 hV2 hV3
          cases e1 with
          | some e =>
            have he : e = ExErr.fuelOut := by
              rcases hV2 with h2 | h2
              · simp at h2
              · simpa using h2
            subst he
            rw [simplifyLoop_step_visit_err hk hnd hck hv]
            exact ⟨hV1, Or.inr rfl, hV3⟩
          | none =>
            rw [simplifyLoop_step_visit_ok hk hnd hck hv]
            have hs1 : (lookupSt st1 n).isSome := by
              have := hV3 n
              simp only at this
              rw [this]
              exact hs
            have hV1b : sInv r st1 := hV1
            have hV3b : sameDom st st1 := hV3
            obtain ⟨ih1, ih2, ih3⟩ := ih (k + 1) st1 n len0 (by omega) hV1b hs1
            exact ⟨ih1, ih2, sameDom_trans hV3b ih3⟩

/-- `eachAfter` with the `simplify` callback, run on a non-root node of
a well-formed heap, preserves the invariant and can only fail for lack
of fuel. -/
theorem simplifyVisit_inv (r : Nat) : ∀ fuel : Nat, ∀ (st : Store) (n : Nat),
    sInv r st → n ≠ r → (lookupSt st n).isSome →
    sInv r (simplifyVisit fuel st n).1 ∧
    ((simplifyVisit fuel st n).2 = none ∨
      (simplifyVisit fuel st n).2 = some .fuelOut) ∧
    sameDom st (simplifyVisit fuel st n).1 := by
  intro fuel
  induction fuel with
  | zero =>
    intro st n hI hne hs
    rw [simplifyVisit_zero]
    exact ⟨hI, Or.inr rfl, sameDom_refl st⟩
  | succ fuel ih =>
    intro st n hI hne hs
    obtain ⟨nd, hnd⟩ := Option.isSome_iff_exists.mp hs
    obtain ⟨hL1, hL2, hL3⟩ :=
      simplifyLoop_inv ih nd.children.length 0 st n nd.children.length (by omega) hI hs
    cases hl : simplifyLoop fuel st n 0 nd.children.length with
    | mk st1 e1 =>
      rw [hl] at hL1 hL2 hL3
      cases e1 with
      | some e =>
        have he : e = ExErr.fuelOut := by
          rcases hL2 with h2 | h2
          · simp at h2
          · simpa using h2
        subst he
        rw [simplifyVisit_succ_err hnd hl]
        exact ⟨hL1, Or.inr rfl, hL3⟩
      | none =>
        rw [simplifyVisit_succ_ok hnd hl]
        have hL1b : sInv r st1 := hL1
        have hL3b : sameDom st st1 := hL3
        have hs1 : (lookupSt st1 n).isSome := by rw [hL3b n]; exact hs
        obtain ⟨hC1, hC2, hC3⟩ := simplifyCb_sInv hL1b hne hs1
        exact ⟨hC1, Or.inl hC2, sameDom_trans hL3b hC3⟩

/-- C10 (confirmed): on every well-formed tree heap whose root has
exactly one child, `simplify()` never completes: the post-order pass
reaches the root still holding exactly one child and calls `excise()`
on it, whose final `this.parent.children` access dereferences the
root's `null` parent (the only other possible outcome of the model is
running out of execution fuel).  Unlike `consolidate`, the `simplify`
callback has no `isRoot()` guard. -/
theorem c10_simplify_one_child_root_throws (fuel : Nat) (st : Store) (r : Nat)
    (rn : BNode)
    (hr : lookupSt st r = some rn) (hrp : rn.parent = none)
    (hrc : rn.children.length = 1)
    (h2 : ∀ e ∈ st, r ∉ (Prod.snd e).children)
    (h3 : ∀ e ∈ st, Prod.fst e ≠ r → (Prod.snd e).parent ≠ none)
    (h4 : ∀ e ∈ st, ∀ c ∈ (Prod.snd e).children, (lookupSt st c).isSome) :
    (simplifySt fuel st r).2 = some ExErr.nullParent ∨
      (simplifySt fuel st r).2 = some ExErr.fuelOut := by
  have hI : sInv r st := ⟨⟨rn, hr, hrp, hrc⟩, h2, h3, h4⟩
  cases fuel with
  | zero =>
    rw [simplifySt_err (simplifyVisit_zero st r)]
    right
    rfl
  | succ fuel =>
    obtain ⟨hL1, hL2, hL3⟩ :=
      simplifyLoop_inv (simplifyVisit_inv r fuel) rn.children.length 0 st r
        rn.children.length (by omega) hI (by rw [hr]; rfl)
    cases hl : simplifyLoop fuel st r 0 rn.children.length with
    | mk st1 e1 =>
      rw [hl] at hL1 hL2 hL3
      cases e1 with
      | some e =>
        have he : e = ExErr.fuelOut := by
          rcases hL2 with h2e | h2e
          · simp at h2e
          · simpa using h2e
        subst he
        rw [simplifySt_err (simplifyVisit_succ_err hr hl)]
        right
        rfl
      | none =>
        left
        have hL1b : sInv r st1 := hL1
        obtain ⟨rn1, hrn1, hrn1p, hrn1c⟩ := hL1b.1
        obtain ⟨c0, hch1⟩ : ∃ c0, rn1.children = [c0] := by
          cases hcc : rn1.children with
          | nil => rw [hcc] at hrn1c; cases hrn1c
          | cons a l =>
            cases l with
            | nil => exact ⟨a, rfl⟩
            | cons b l2 => rw [hcc] at hrn1c; simp at hrn1c
        have hc0r : c0 ≠ r := by
          intro hh
          have hcmem : c0 ∈ rn1.children := by
            rw [hch1]; exact List.mem_singleton.mpr rfl
          exact hL1b.2.1 (r, rn1) (lookupSt_mem hrn1) (hh ▸ hcmem)
        have hlk2 : lookupSt (updateSt st1 c0 (fun cn =>
            { cn with id := if cn.id = "" then rn1.id else rn1.id ++ "+" ++ cn.id })) r =
            some rn1 := by
          rw [lookupSt_updateSt, if_neg (fun hh : c0 = r => hc0r hh)]
          exact hrn1
        have hcb : simplifyCb st1 r =
            ((updateSt (updateSt st1 c0 (fun cn =>
              { cn with id := if cn.id = "" then rn1.id else rn1.id ++ "+" ++ cn.id }))
              c0 (fun cn => { cn with length := cn.length + rn1.length, parent := none })),
             some ExErr.nullParent) := by
          unfold simplifyCb
          rw [hrn1]
          simp only [if_pos hrn1c, hch1]
          rw [exciseSt_root_one_child hlk2 hrn1p hch1]
          simp
        rw [simplifySt_err ((simplifyVisit_succ_ok hr hl).trans hcb)]

/-- Demo heap for `simplify`: root `0` whose only child is leaf `1`. -/
def demoSt10 : Store :=
  [(0, { id := "r", length := 0, parent := none, children := [1] }),
   (1, { id := "a", length := 1, parent := some 0, children := [] })]

/-- Closed witness for `c10_simplify_one_child_root_throws` on
`demoSt10`. -/
theorem c10_simplify_one_child_root_throws_witness :
    (simplifySt 5 demoSt10 0).2 = some ExErr.nullParent ∨
      (simplifySt 5 demoSt10 0).2 = some ExErr.fuelOut :=
  c10_simplify_one_child_root_throws 5 demoSt10 0
    { id := "r", length := 0, parent := none, children := [1] }
    rfl rfl (by decide) (by decide) (by decide) (by decide)

/-! ### `toObject`, `parseJSON`, `clone` and `copy`
(source lines 111-113, 140-144, 921-929, 959-974)

```js
Branch.prototype.clone = function() { return parseJSON(this.toObject()); };
Branch.prototype.copy = function() {
  let newThis = parseJSON(JSON.stringify(this));
  newThis.parent = null;
  return newThis.fixDistances();
};
Branch.prototype.toObject = function() {
  let output = { id: this.id, length: this.length };
  if (this.children.length > 0) output.children = this.children.map(c => c.toObject());
  return output;
};
function parseJSON(json, ...) {
  ...
  let root = new Branch({ id: json[idLabel], length: json[lengthLabel] });
  if (json[childrenLabel] instanceof Array) {
    json[childrenLabel].forEach(child => { root.addChild(parseJSON(child)); });
  }
  return root.fixDistances();
}
```

`JSON.stringify(this)` serializes through `toJSON = toObject`, so both
`clone` and `copy` rebuild the subtree from its plain-object form with
freshly constructed `Branch` objects. -/

/-- The plain-object export form `{ id, length, children }`. -/
inductive Shape where
  | node (id : String) (length : Rat) (children : List Shape)

/-- The `id` of a plain object. -/
def Shape.id : Shape → String
  | .node i _ _ => i

/-- The `length` of a plain object. -/
def Shape.length : Shape → Rat
  | .node _ l _ => l

/-- The `children` of a plain object. -/
def Shape.children : Shape → List Shape
  | .node _ _ cs => cs

/-- `Branch.toObject` in the store model (fuelled against cyclic
heaps). -/
def toObjectSt (fuel : Nat) (st : Store) : Nat → Option Shape :=
  match fuel with
  | 0 => fun _ => none
  | fuel + 1 => fun n =>
    match lookupSt st n with
    | none => none
    | some nd =>
      match nd.children.mapM (toObjectSt fuel st) with
      | none => none
      | some shs => some (.node nd.id nd.length shs)

mutual
/-- `parseJSON` in the store model: allocate a fresh `Branch` for the
object, `addChild` each recursively parsed child, then run
`fixDistances`.  Returns the extended heap, the new root handle, and
the next fresh handle. -/
def parseJSONSt (fuel : Nat) : Shape → Store → Nat → Option (Store × Nat × Nat)
  | .node i l cs, st, ctr =>
    let st1 : Store := st ++ [(ctr, { id := i, length := l, parent := none, children := [] })]
    match parseJSONStL fuel cs st1 ctr (ctr + 1) with
    | none => none
    | some (st2, ctr2) =>
      match fixDistancesSt fuel st2 ctr with
      | (st3, none) => some (st3, ctr, ctr2)
      | (_, some _) => none
/-- The `forEach` of `parseJSON` over the children array. -/
def parseJSONStL (fuel : Nat) : List Shape → Store → Nat → Nat → Option (Store × Nat)
  | [], st, _, ctr => some (st, ctr)
  | c :: rest, st, root, ctr =>
    match parseJSONSt fuel c st ctr with
    | none => none
    | some (st1, cid, ctr1) =>
      parseJSONStL fuel rest (addChildB st1 root cid) root ctr1
end

/-- `Branch.clone`: `parseJSON(this.toObject())`. -/
def cloneSt (fuel : Nat) (st : Store) (n : Nat) (fresh : Nat) :
    Option (Store × Nat × Nat) :=
  match toObjectSt fuel st n with
  | none => none
  | some sh => parseJSONSt fuel sh st fresh

/-- `Branch.copy`: `parseJSON(JSON.stringify(this))`, then
`parent = null` and another `fixDistances`. -/
def copySt (fuel : Nat) (st : Store) (n : Nat) (fresh : Nat) :
    Option (Store × Nat × Nat) :=
  match toObjectSt fuel st n with
  | none => none
  | some sh =>
    match parseJSONSt fuel sh st fresh with
    | none => none
    | some (st1, root, ctr) =>
      let st2 := updateSt st1 root (fun m => { m with parent := none })
      match fixDistancesSt fuel st2 root with
      | (st3, none) => some (st3, root, ctr)
      | (_, some _) => none

/-- Demo heap for `clone`: root `0` with the single leaf child `1`. -/
def demoSt9 : Store :=
  [(0, { id := "p", length := 0, parent := none, children := [1] }),
   (1, { id := "c", length := 2, parent := some 0, children := [] })]

/-- C9 (counterexample): `clone()` is not shallow: cloning the root of
`demoSt9` into fresh handles starting at `100` produces a new root
`100` whose `children` array is `[101]` — a freshly built node — and
not `[1]`, the existing subtree object that a shallow clone would
share. -/
theorem c9_counterexample :
    (cloneSt 10 demoSt9 0 100).map
        (fun x => (lookupSt x.1 x.2.1).map BNode.children) =
      some (some [101]) ∧
      (lookupSt demoSt9 0).map BNode.children = some [1] ∧
      ([101] : List Nat) ≠ [1] := by
  refine ⟨by decide, by decide, by decide⟩

/-- Identity-relevant fields of a stored node: `id`, `length`,
`parent`, `children` (everything except the derived `value`, `depth`,
`height`). -/
def shapeF (nd : BNode) : String × Rat × Option Nat × List Nat :=
  (nd.id, nd.length, nd.parent, nd.children)

/-- The identity-relevant fields stored at a handle. -/
def shapeAt (st : Store) (j : Nat) : Option (String × Rat × Option Nat × List Nat) :=
  (lookupSt st j).map shapeF

/-- All handles of the heap are below `b`. -/
def keysB (st : Store) (b : Nat) : Prop :=
  ∀ k ∈ st.map Prod.fst, k < b

theorem keysB_mono {st : Store} {b b2 : Nat} (h : b ≤ b2) (hk : keysB st b) :
    keysB st b2 := fun k hkm => lt_of_lt_of_le (hk k hkm) h

theorem keysB_lookup_none {st : Store} {b : Nat} (hk : keysB st b) :
    lookupSt st b = none := by
  cases hl : lookupSt st b with
  | none => rfl
  | some v =>
    have := hk b (List.mem_map.mpr ⟨(b, v), lookupSt_mem hl, rfl⟩)
    omega

theorem lookupSt_append (st st2 : Store) (j : Nat) :
    lookupSt (st ++ st2) j =
      match lookupSt st j with
      | some v => some v
      | none => lookupSt st2 j := by
  induction st with
  | nil => simp [lookupSt]
  | cons e rest ih =>
    obtain ⟨k1, v1⟩ := e
    by_cases h : k1 = j
    · simp [lookupSt, h]
    · simp only [List.cons_append, lookupSt, if_neg h]
      exact ih

theorem shapeAt_append_single {st : Store} {ctr j : Nat} {v : BNode} (hj : j ≠ ctr) :
    shapeAt (st ++ [(ctr, v)]) j = shapeAt st j := by
  unfold shapeAt
  rw [lookupSt_append]
  cases hl : lookupSt st j with
  | some w => rfl
  | none =>
    simp only [lookupSt, if_neg (fun hh : ctr = j => hj hh.symm)]

theorem lookupSt_append_single_self {st : Store} {ctr : Nat} {v : BNode}
    (hk : keysB st ctr) : lookupSt (st ++ [(ctr, v)]) ctr = some v := by
  rw [lookupSt_append, keysB_lookup_none hk]
  simp [lookupSt]

theorem shapeAt_updateSt_benign (f : BNode → BNode)
    (hf : ∀ m, shapeF (f m) = shapeF m) (st : Store) (k j : Nat) :
    shapeAt (updateSt st k f) j = shapeAt st j := by
  unfold shapeAt
  rw [lookupSt_updateSt]
  by_cases h : k = j
  · rw [if_pos h]
    cases lookupSt st j with
    | none => rfl
    | some w => simp [hf w]
  · rw [if_neg h]

theorem fdDepthsGo_shape : ∀ (fuel : Nat) (st : Store) (stack : List (Nat × Nat))
    (md j : Nat), shapeAt (fdDepthsGo fuel st stack md).1 j = shapeAt st j := by
  intro fuel
  induction fuel with
  | zero => intro st stack md j; rw [fdDepthsGo]
  | succ fuel ih =>
    intro st stack md j
    cases stack with
    | nil => rw [fdDepthsGo]
    | cons e rest =>
      obtain ⟨n, d⟩ := e
      rw [fdDepthsGo]
      cases hl : lookupSt st n with
      | none => rfl
      | some nd =>
        simp only
        rw [ih]
        apply shapeAt_updateSt_benign
        intro m
        rfl

theorem fdHVGo_shape : ∀ (fuel md : Nat) (st : Store) (stack : List HVTask)
    (j : Nat), shapeAt (fdHVGo fuel md st stack).1 j = shapeAt st j := by
  intro fuel
  induction fuel with
  | zero => intro md st stack j; rw [fdHVGo]
  | succ fuel ih =>
    intro md st stack j
    cases stack with
    | nil => rw [fdHVGo]
    | cons t rest =>
      cases t with
      | visit n =>
        rw [fdHVGo]
        cases hl : lookupSt st n with
        | none => rfl
        | some nd =>
          simp only
          rw [ih]
      | finish n =>
        rw [fdHVGo]
        cases hl : lookupSt st n with
        | none => rfl
        | some nd =>
          simp only
          rw [ih]
          apply shapeAt_updateSt_benign
          intro m
          rfl

theorem fixDistancesSt_shape (fuel : Nat) (st : Store) (r j : Nat) :
    shapeAt (fixDistancesSt fuel st r).1 j = shapeAt st j := by
  unfold fixDistancesSt
  cases hd : fdDepthsGo fuel st [(r, 0)] 0 with
  | mk st1 rest =>
    obtain ⟨md, e⟩ := rest
    have h1 : shapeAt st1 j = shapeAt st j := by
      have := fdDepthsGo_shape fuel st [(r, 0)] 0 j
      rw [hd] at this
      exact this
    cases e with
    | some e2 => exact h1
    | none =>
      have h2 := fdHVGo_shape fuel md st1 [.visit r] j
      exact h2.trans h1

theorem keys_lookupSt_congr {st st2 : Store}
    (h : st2.map Prod.fst = st.map Prod.fst) {b : Nat} (hk : keysB st b) :
    keysB st2 b := by
  intro k hkm
  rw [h] at hkm
  exact hk k hkm

theorem keys_fdDepthsGo : ∀ (fuel : Nat) (st : Store) (stack : List (Nat × Nat))
    (md : Nat), (fdDepthsGo fuel st stack md).1.map Prod.fst = st.map Prod.fst := by
  intro fuel
  induction fuel with
  | zero => intro st stack md; rw [fdDepthsGo]
  | succ fuel ih =>
    intro st stack md
    cases stack with
    | nil => rw [fdDepthsGo]
    | cons e rest =>
      obtain ⟨n, d⟩ := e
      rw [fdDepthsGo]
      cases hl : lookupSt st n with
      | none => rfl
      | some nd =>
        simp only
        rw [ih, keys_updateSt]

theorem keys_fdHVGo : ∀ (fuel md : Nat) (st : Store) (stack : List HVTask),
    (fdHVGo fuel md st stack).1.map Prod.fst = st.map Prod.fst := by
  intro fuel
  induction fuel with
  | zero => intro md st stack; rw [fdHVGo]
  | succ fuel ih =>
    intro md st stack
    cases stack with
    | nil => rw [fdHVGo]
    | cons t rest =>
      cases t with
      | visit n =>
        rw [fdHVGo]
        cases hl : lookupSt st n with
        | none => rfl
        | some nd =>
          simp only
          rw [ih]
      | finish n =>
        rw [fdHVGo]
        cases hl : lookupSt st n with
        | none => rfl
        | some nd =>
          simp only
          rw [ih, keys_updateSt]

theorem keys_fixDistancesSt (fuel : Nat) (st : Store) (r : Nat) :
    (fixDistancesSt fuel st r).1.map Prod.fst = st.map Prod.fst := by
  unfold fixDistancesSt
  cases hd : fdDepthsGo fuel st [(r, 0)] 0 with
  | mk st1 rest =>
    obtain ⟨md, e⟩ := rest
    have h1 : st1.map Prod.fst = st.map Prod.fst := by
      have := keys_fdDepthsGo fuel st [(r, 0)] 0
      rw [hd] at this
      exact this
    cases e with
    | some e2 => exact h1
    | none => exact (keys_fdHVGo fuel md st1 [.visit r]).trans h1

theorem keys_addChildB (st : Store) (p c : Nat) :
    (addChildB st p c).map Prod.fst = st.map Prod.fst := by
  unfold addChildB
  rw [keys_updateSt, keys_updateSt]

theorem keysB_append_single {st : Store} {ctr : Nat} (v : BNode)
    (hk : keysB st ctr) : keysB (st ++ [(ctr, v)]) (ctr + 1) := by
  intro k hkm
  rw [List.map_append] at hkm
  rcases List.mem_append.mp hkm with h | h
  · exact lt_trans (hk k h) (Nat.lt_succ_self ctr)
  · simp only [List.map_cons, List.map_nil, List.mem_singleton] at h
    omega

/-- Appending handles onto the `children` component of an
identity-shape quadruple. -/
def chAppend (added : List Nat) (q : String × Rat × Option Nat × List Nat) :
    String × Rat × Option Nat × List Nat :=
  (q.1, q.2.1, q.2.2.1, q.2.2.2 ++ added)

theorem chAppend_chAppend (a b : List Nat) (q : String × Rat × Option Nat × List Nat) :
    chAppend b (chAppend a q) = chAppend (a ++ b) q := by
  simp [chAppend, List.append_assoc]

theorem chAppend_nil (q : String × Rat × Option Nat × List Nat) :
    chAppend [] q = q := by
  simp [chAppend]

theorem shapeAt_addChildB_other (st : Store) (p c j : Nat) (hp : j ≠ p)
    (hc : j ≠ c) : shapeAt (addChildB st p c) j = shapeAt st j := by
  unfold addChildB shapeAt
  simp only
  rw [lookupSt_updateSt, if_neg (fun h => hp h.symm),
    lookupSt_updateSt, if_neg (fun h => hc h.symm)]

theorem shapeAt_addChildB_parent (st : Store) (p c : Nat) (hpc : p ≠ c) :
    shapeAt (addChildB st p c) p = (shapeAt st p).map (chAppend [c]) := by
  unfold addChildB shapeAt
  simp only
  rw [lookupSt_updateSt, if_pos rfl, lookupSt_updateSt,
    if_neg (fun h => hpc h.symm)]
  cases lookupSt st p with
  | none => rfl
  | some nd => simp [shapeF, chAppend]

theorem shapeAt_some {st : Store} {j : Nat}
    {q : String × Rat × Option Nat × List Nat} (h : shapeAt st j = some q) :
    ∃ nd, lookupSt st j = some nd ∧ nd.id = q.1 ∧ nd.length = q.2.1 ∧
      nd.parent = q.2.2.1 ∧ nd.children = q.2.2.2 := by
  unfold shapeAt at h
  cases hl : lookupSt st j with
  | none => rw [hl] at h; cases h
  | some nd =>
    rw [hl] at h
    injection h with h2
    subst h2
    exact ⟨nd, rfl, rfl, rfl, rfl, rfl⟩

mutual
/-- Structural size of a plain object. -/
def shSize : Shape → Nat
  | .node _ _ cs => shSizeL cs + 1
/-- Structural size of a plain-object list. -/
def shSizeL : List Shape → Nat
  | [] => 0
  | c :: rest => shSize c + shSizeL rest + 1
end

theorem shSize_pos (sh : Shape) : 0 < shSize sh := by
  cases sh with
  | node i l cs => rw [shSize]; omega

/-- What one `parseJSON` call guarantees: the fresh handle becomes the
root, only handles in `[ctr, ctr2)` are allocated or reshaped, and the
root carries the object's `id`/`length`, a `none` parent, and only
freshly allocated children. -/
def pjP (fuel : Nat) (sh : Shape) : Prop :=
  ∀ st ctr st2 root ctr2, keysB st ctr →
    parseJSONSt fuel sh st ctr = some (st2, root, ctr2) →
    root = ctr ∧ ctr < ctr2 ∧ keysB st2 ctr2 ∧
    (∀ j, j < ctr → shapeAt st2 j = shapeAt st j) ∧
    (∃ added, shapeAt st2 ctr = some (sh.id, sh.length, none, added) ∧
      ∀ c ∈ added, ctr < c ∧ c < ctr2)

/-- What the children loop of `parseJSON` guarantees: handles below
`ctr` other than the root keep their shape, and the root's `children`
array gains only handles from `[ctr, ctr2)`. -/
def pjPL (fuel : Nat) (cs : List Shape) : Prop :=
  ∀ st root ctr st2 ctr2, keysB st ctr → root < ctr →
    parseJSONStL fuel cs st root ctr = some (st2, ctr2) →
    ctr ≤ ctr2 ∧ keysB st2 ctr2 ∧
    (∀ j, j < ctr → j ≠ root → shapeAt st2 j = shapeAt st j) ∧
    (∃ added, shapeAt st2 root = (shapeAt st root).map (chAppend added) ∧
      ∀ c ∈ added, ctr ≤ c ∧ c < ctr2)

theorem pjPL_nil (fuel : Nat) : pjPL fuel [] := by
  intro st root ctr st2 ctr2 hk hroot h
  rw [parseJSONStL] at h
  injection h with h1
  injection h1 with h2 h3
  subst h2
  subst h3
  refine ⟨le_refl _, hk, fun j hj hjr => rfl, [], ?_, by simp⟩
  cases shapeAt st root with
  | none => rfl
  | some q => simp [chAppend_nil]

theorem pjAux : ∀ (n fuel : Nat),
    (∀ sh, shSize sh ≤ n → pjP fuel sh) ∧
    (∀ cs, shSizeL cs ≤ n → pjPL fuel cs) := by
  intro n
  induction n with
  | zero =>
    intro fuel
    constructor
    · intro sh hsz
      have := shSize_pos sh
      omega
    · intro cs hsz
      cases cs with
      | nil => exact pjPL_nil fuel
      | cons c rest => rw [shSizeL] at hsz; omega
  | succ n ih =>
    intro fuel
    constructor
    · intro sh hsz
      cases sh with
      | node i l cs =>
        rw [shSize] at hsz
        have hcs : shSizeL cs ≤ n := by omega
        intro st ctr st2 root ctr2 hk hpj
        rw [parseJSONSt] at hpj
        cases hL : parseJSONStL fuel cs
            (st ++ [(ctr, { id := i, length := l, parent := none, children := [] })])
            ctr (ctr + 1) with
        | none =>
          simp only [hL] at hpj
          exact Option.noConfusion hpj
        | some p =>
          obtain ⟨stm, ctrm⟩ := p
          simp only [hL] at hpj
          cases hF : fixDistancesSt fuel stm ctr with
          | mk st3 e =>
            cases e with
            | some e2 =>
              simp only [hF] at hpj
              exact Option.noConfusion hpj
            | none =>
              simp only [hF] at hpj
              simp only [Option.some.injEq, Prod.mk.injEq] at hpj
              obtain ⟨rfl, rfl, rfl⟩ := hpj
              obtain ⟨hle, hkm, hunt, added, hrootSh, hbnd⟩ :=
                (ih fuel).2 cs hcs _ ctr (ctr + 1) stm ctrm
                  (keysB_append_single _ hk) (Nat.lt_succ_self ctr) hL
              have hfdSh : ∀ j, shapeAt st3 j = shapeAt stm j := by
                intro j
                have := fixDistancesSt_shape fuel stm ctr j
                rw [hF] at this
                exact this
              refine ⟨rfl, by omega, ?_, ?_, added, ?_, ?_⟩
              · have hkeys : st3.map Prod.fst = stm.map Prod.fst := by
                  have := keys_fixDistancesSt fuel stm ctr
                  rw [hF] at this
                  exact this
                exact keys_lookupSt_congr hkeys hkm
              · intro j hj
                rw [hfdSh j, hunt j (by omega) (by omega),
                  shapeAt_append_single (Nat.ne_of_lt hj)]
              · rw [hfdSh ctr, hrootSh]
                unfold shapeAt
                rw [lookupSt_append_single_self hk]
                simp [shapeF, chAppend, Shape.id, Shape.length]
              · intro c2 hc2
                have := hbnd c2 hc2
                omega
    · intro cs hsz
      cases cs with
      | nil => exact pjPL_nil fuel
      | cons c rest =>
        rw [shSizeL] at hsz
        have hc : shSize c ≤ n := by omega
        have hrest : shSizeL rest ≤ n := by omega
        intro st root ctr st2 ctr2 hk hroot h
        rw [parseJSONStL] at h
        cases hcp : parseJSONSt fuel c st ctr with
        | none =>
          simp only [hcp] at h
          exact Option.noConfusion h
        | some p =>
          obtain ⟨st1, q⟩ := p
          obtain ⟨cid, ctr1⟩ := q
          simp only [hcp] at h
          obtain ⟨hcid, hlt1, hk1, hunt1, addc, hshc, hbc⟩ :=
            (ih fuel).1 c hc st ctr st1 cid ctr1 hk hcp
          subst hcid
          have hkA : keysB (addChildB st1 root cid) ctr1 :=
            keys_lookupSt_congr (keys_addChildB st1 root cid) hk1
          obtain ⟨hle2, hk2, hunt2, addr, hshr, hbr⟩ :=
            (ih fuel).2 rest hrest (addChildB st1 root cid) root ctr1 st2 ctr2
              hkA (lt_trans hroot hlt1) h
          refine ⟨by omega, hk2, ?_, cid :: addr, ?_, ?_⟩
          · intro j hj hjr
            rw [hunt2 j (by omega) hjr,
              shapeAt_addChildB_other st1 root cid j hjr (by omega),
              hunt1 j hj]
          · rw [hshr, shapeAt_addChildB_parent st1 root cid (by omega),
              hunt1 root hroot]
            cases shapeAt st root with
            | none => rfl
            | some q2 =>
              simp only [Option.map_some', chAppend_chAppend, List.singleton_append]
          · intro c2 hc2
            rcases List.mem_cons.mp hc2 with h2 | h2
            · subst h2
              exact ⟨le_refl _, by omega⟩
            · have := hbr c2 h2
              exact ⟨by omega, this.2⟩

/-- The deep-rebuild outcome: the returned root is the fresh handle
(a brand-new node, not any pre-existing one), every pre-existing
handle keeps its `id`/`length`/`parent`/`children` exactly, the new
root's `parent` is `none`, and every entry of the new root's
`children` array is a freshly allocated handle — never one of the
original subtree's nodes. -/
def deepResult (st st2 : Store) (fresh root ctr2 : Nat) : Prop :=
  root = fresh ∧ fresh < ctr2 ∧
  (∀ j, j < fresh → shapeAt st2 j = shapeAt st j) ∧
  (∃ nd, lookupSt st2 root = some nd ∧ nd.parent = none ∧
    ∀ c ∈ nd.children, fresh < c ∧ c < ctr2)

/-- C9: contrary to the claimed shallow/deep distinction, `clone()` is
just as deep as `copy()`: both run `parseJSON` on the serialized
subtree, so on any heap whose handles lie below `fresh`, whenever
either operation succeeds its result is a deep rebuild — a brand-new
root with `parent` `none` whose children are all freshly built nodes
(never the original subtree objects), with every original node left
untouched. -/
theorem c9_clone_copy_deep (fuel : Nat) (st : Store) (n fresh : Nat)
    (hk : keysB st fresh) :
    (∀ st2 root ctr2, cloneSt fuel st n fresh = some (st2, root, ctr2) →
      deepResult st st2 fresh root ctr2) ∧
    (∀ st2 root ctr2, copySt fuel st n fresh = some (st2, root, ctr2) →
      deepResult st st2 fresh root ctr2) := by
  constructor
  · intro st2 root ctr2 h
    unfold cloneSt at h
    cases ho : toObjectSt fuel st n with
    | none =>
      simp only [ho] at h
      exact Option.noConfusion h
    | some sh =>
      simp only [ho] at h
      obtain ⟨hroot, hlt, hk2, hunt, added, hsh, hb⟩ :=
        (pjAux (shSize sh) fuel).1 sh (le_refl _) st fresh st2 root ctr2 hk h
      subst hroot
      obtain ⟨nd, hl, hid, hlen, hpar, hch⟩ := shapeAt_some hsh
      refine ⟨rfl, hlt, hunt, nd, hl, hpar, ?_⟩
      intro c hc
      have h5 : nd.children = added := hch
      rw [h5] at hc
      exact hb c hc
  · intro st2 root ctr2 h
    unfold copySt at h
    cases ho : toObjectSt fuel st n with
    | none =>
      simp only [ho] at h
      exact Option.noConfusion h
    | some sh =>
      simp only [ho] at h
      cases hp : parseJSONSt fuel sh st fresh with
      | none =>
        simp only [hp] at h
        exact Option.noConfusion h
      | some p =>
        obtain ⟨st1, q⟩ := p
        obtain ⟨root0, ctr0⟩ := q
        simp only [hp] at h
        obtain ⟨hroot0, hlt, hk1, hunt1, added, hsh1, hb1⟩ :=
          (pjAux (shSize sh) fuel).1 sh (le_refl _) st fresh st1 root0 ctr0 hk hp
        have hr0 := hroot0.symm
        subst hr0
        cases hF : fixDistancesSt fuel
            (updateSt st1 fresh (fun m => { m with parent := none })) fresh with
        | mk st3 e =>
          cases e with
          | some e2 =>
            simp only [hF] at h
            exact Option.noConfusion h
          | none =>
            simp only [hF] at h
            simp only [Option.some.injEq, Prod.mk.injEq] at h
            obtain ⟨rfl, rfl, rfl⟩ := h
            have hfdSh : ∀ j, shapeAt st3 j =
                shapeAt (updateSt st1 fresh (fun m => { m with parent := none })) j := by
              intro j
              have := fixDistancesSt_shape fuel
                (updateSt st1 fresh (fun m => { m with parent := none })) fresh j
              rw [hF] at this
              exact this
            obtain ⟨nd1, hl1, hid1, hlen1, hpar1, hch1⟩ := shapeAt_some hsh1
            refine ⟨rfl, hlt, ?_, ?_⟩
            · intro j hj
              rw [hfdSh j]
              unfold shapeAt
              rw [lookupSt_updateSt, if_neg (by omega)]
              exact hunt1 j hj
            · have hl2 : lookupSt
                  (updateSt st1 fresh (fun m => { m with parent := none })) fresh =
                  some { nd1 with parent := none } := by
                rw [lookupSt_updateSt, if_pos rfl, hl1]
                rfl
              have hsh3 : shapeAt st3 fresh =
                  some (shapeF { nd1 with parent := none }) := by
                rw [hfdSh fresh]
                unfold shapeAt
                rw [hl2]
                rfl
              obtain ⟨nd3, hl3, hid3, hlen3, hpar3, hch3⟩ := shapeAt_some hsh3
              refine ⟨nd3, hl3, hpar3, ?_⟩
              intro c hc
              have h5 : nd3.children = nd1.children := hch3
              have h6 : nd1.children = added := hch1
              rw [h5, h6] at hc
              exact hb1 c hc

/-- C9 witness: on the two-node demo heap, both `clone()` and `copy()`
of the root into fresh handle `100` satisfy the deep-rebuild
conclusion. -/
theorem c9_clone_copy_deep_witness :
    keysB demoSt9 100 ∧
      ((∀ st2 root ctr2, cloneSt 10 demoSt9 0 100 = some (st2, root, ctr2) →
          deepResult demoSt9 st2 100 root ctr2) ∧
        (∀ st2 root ctr2, copySt 10 demoSt9 0 100 = some (st2, root, ctr2) →
          deepResult demoSt9 st2 100 root ctr2)) :=
  ⟨by unfold keysB; decide, c9_clone_copy_deep 10 demoSt9 0 100 (by unfold keysB; decide)⟩

/-! ### C4: neighbor joining in `parseMatrix` (source lines 986-1075)

```js
while (that.cN > 2) {
  ({ minI, minJ } = search(that));
  d1 = 0.5 * that.D[minI][minJ] +
       (that.rowSums[minI] - that.rowSums[minJ]) / (2 * that.cN - 4);
  d2 = that.D[minI][minJ] - d1;
  l1 = that.currIndexToLabel[minI];
  l2 = that.currIndexToLabel[minJ];
  node1 = setUpNode(l1, d1);
  node2 = setUpNode(l2, d2);
  node3 = new Branch({ children: [node1, node2] });
  recalculateDistanceMatrix(that, minI, minJ);
  ...
  that.cN--;
  that.labelToNode[that.nextIndex] = node3;
  that.currIndexToLabel[minI] = -1;
  that.currIndexToLabel[minJ] = that.nextIndex++;
}
let left = that.indicesLeft.values();
minI = left.next().value;
minJ = left.next().value;
l1 = that.currIndexToLabel[minI];
l2 = that.currIndexToLabel[minJ];
d1 = d2 = that.D[minI][minJ] / 2;
node1 = setUpNode(l1, d1);
node2 = setUpNode(l2, d2);
let tree = new Branch({ children: [node1, node2] });
```

The chosen pair `(minI, minJ)` is whatever `search` returns; the claim
is conditional on the chosen pair, so the pair is a parameter of the
embedded step (the `S`/`I` sorted-row caches and `rowSumMax`, which
only feed `search`'s pruning, are therefore not tracked).  Matrix
entries are exact rationals; `a[i][j]` on an in-range JS array is
`(a.getD i []).getD j 0` here.  The built tree nodes carry only `id`,
`length` and `children`, which is the `Shape` type above (the final
`fixParenthood`/`fixDistances` touch none of those three fields). -/

/-- The mutable state of `parseMatrix`'s neighbor-joining loop. -/
structure NJState where
  n : Nat
  labels : List String
  d : List (List Rat)
  rowSums : List Rat
  cN : Nat
  currIndexToLabel : List Int
  labelToNode : List (Option Shape)
  nextIndex : Nat
  removedIndices : List Nat
  indicesLeft : List Nat

/-- `a[i][j]` of the distance matrix. -/
def mGet (d : List (List Rat)) (i j : Nat) : Rat := (d.getD i []).getD j 0

/-- `a[i]` of a numeric row. -/
def lGet (l : List Rat) (i : Nat) : Rat := l.getD i 0

/-- `Branch.setLength` on a plain node (source line 746):
`this.length = length`. -/
def setShLength : Shape → Rat → Shape
  | .node i _ cs, l => .node i l cs

/-- `setUpNode(labelIndex, distance)` (source lines 1016-1026): an
original taxon (`labelIndex < N`) gets a brand-new node with its label
and the given distance as `length`; a previously joined cluster is
fetched from `labelToNode` and has `setLength(distance)` applied.  A
missing `labelToNode` entry would make `node.setLength` throw, hence
`none` (a negative `labelIndex` never reaches the lookup on real runs;
its `labels[...]` read is modelled with the `getD` default). -/
def setUpNode (st : NJState) (labelIndex : Int) (distance : Rat) :
    Option (NJState × Shape) :=
  if labelIndex < (st.n : Int) then
    let nd := Shape.node (st.labels.getD labelIndex.toNat "") distance []
    some ({ st with labelToNode := st.labelToNode.set labelIndex.toNat (some nd) }, nd)
  else
    match st.labelToNode.getD labelIndex.toNat none with
    | none => none
    | some nd0 => some (st, setShLength nd0 distance)

/-- `newRow[i]` of `recalculateDistanceMatrix` (source lines 1122-1158):
`0.5 * (D[j1][i] + D[j2][i] - D[j1][j2])`. -/
def njNewRow (d : List (List Rat)) (j1 j2 i : Nat) : Rat :=
  (1/2 : Rat) * ((mGet d j1 i + mGet d j2 i) - mGet d j1 j2)

/-- `rowChange[i]` of `recalculateDistanceMatrix`:
`-0.5 * (D[j1][i] + D[j2][i] + D[j1][j2])`. -/
def njRowChange (d : List (List Rat)) (j1 j2 i : Nat) : Rat :=
  (-(1/2) : Rat) * ((mGet d j1 i + mGet d j2 i) + mGet d j1 j2)

/-- `recalculateDistanceMatrix(t, j1, j2)`: marks `j1` removed, writes
`-1` across row and column `j1`, writes the `newRow` averages into row
and column `j2`, applies `rowChange` to the row sums (then overwrites
`rowSums[j1] = 0` and `rowSums[j2] = sum`), and drops `j1` from
`indicesLeft`.  `newRow`/`rowChange` are fully precomputed from the
old matrix before any entry is overwritten, as in the source. -/
def recalcDM (st : NJState) (j1 j2 : Nat) : NJState :=
  let n := st.d.length
  let removed1 := j1 :: st.removedIndices
  let active := (List.range n).filter (fun i => ¬ i ∈ removed1)
  let s := (active.map (njNewRow st.d j1 j2)).sum
  let d2 := st.d.mapIdx (fun i row => row.mapIdx (fun k v =>
    if i = j1 ∨ k = j1 then -1
    else if i = j2 ∧ ¬ k ∈ removed1 then njNewRow st.d j1 j2 k
    else if k = j2 ∧ ¬ i ∈ removed1 then njNewRow st.d j1 j2 i
    else v))
  let rs2 := st.rowSums.mapIdx (fun i v =>
    if i = j1 then 0
    else if i = j2 then s
    else if ¬ i ∈ removed1 then v + njRowChange st.d j1 j2 i
    else v)
  { st with
    d := d2,
    rowSums := rs2,
    removedIndices := removed1,
    indicesLeft := st.indicesLeft.filter (fun i => i ≠ j1) }

/-- One body of the `while (that.cN > 2)` loop, with the chosen pair
`(minI, minJ)` as a parameter: the two freshly measured nodes, their
bifurcating parent `node3`, the matrix recalculation, and the
index/label bookkeeping. -/
def njStep (st : NJState) (minI minJ : Nat) : Option (NJState × Shape) :=
  let d1 := (1/2 : Rat) * mGet st.d minI minJ +
    (lGet st.rowSums minI - lGet st.rowSums minJ) / (2 * (st.cN : Rat) - 4)
  let d2 := mGet st.d minI minJ - d1
  let l1 := st.currIndexToLabel.getD minI (-1)
  let l2 := st.currIndexToLabel.getD minJ (-1)
  match setUpNode st l1 d1 with
  | none => none
  | some (st1, node1) =>
    match setUpNode st1 l2 d2 with
    | none => none
    | some (st2, node2) =>
      let node3 := Shape.node "" 0 [node1, node2]
      let st3 := recalcDM st2 minI minJ
      some ({ st3 with
        cN := st3.cN - 1,
        labelToNode := st3.labelToNode.set st3.nextIndex (some node3),
        currIndexToLabel :=
          (st3.currIndexToLabel.set minI (-1)).set minJ (st3.nextIndex : Int),
        nextIndex := st3.nextIndex + 1 }, node3)

/-- The final join once `cN` has reached `2`: the two remaining active
indices (the first two of `indicesLeft`), each at distance
`D[minI][minJ] / 2` under the new root. -/
def njFinal (st : NJState) : Option Shape :=
  match st.indicesLeft with
  | minI :: minJ :: _ =>
    let d1 := mGet st.d minI minJ / 2
    let l1 := st.currIndexToLabel.getD minI (-1)
    let l2 := st.currIndexToLabel.getD minJ (-1)
    match setUpNode st l1 d1 with
    | none => none
    | some (st1, node1) =>
      match setUpNode st1 l2 d1 with
      | none => none
      | some (_, node2) => some (Shape.node "" 0 [node1, node2])
  | _ => none

/-- The spec's step formula, written from the spec's words:
`d1 = 0.5·D[i][j] + (R[i]−R[j])/(2·cN−4)`. -/
def njSpecStepD1 (st : NJState) (i j : Nat) : Rat :=
  (1/2 : Rat) * mGet st.d i j +
    (lGet st.rowSums i - lGet st.rowSums j) / (2 * (st.cN : Rat) - 4)

/-- The spec's second step formula: `d2 = D[i][j] − d1`. -/
def njSpecStepD2 (st : NJState) (i j : Nat) : Rat :=
  mGet st.d i j - njSpecStepD1 st i j

theorem setUpNode_length {st : NJState} {l : Int} {dd : Rat} {st2 : NJState}
    {nd : Shape} (h : setUpNode st l dd = some (st2, nd)) : nd.length = dd := by
  unfold setUpNode at h
  by_cases hc : l < (st.n : Int)
  · rw [if_pos hc] at h
    simp only [Option.some.injEq, Prod.mk.injEq] at h
    rw [← h.2]
    rfl
  · rw [if_neg hc] at h
    cases hl : st.labelToNode.getD l.toNat none with
    | none =>
      simp only [hl] at h
      exact Option.noConfusion h
    | some nd0 =>
      simp only [hl, Option.some.injEq, Prod.mk.injEq] at h
      rw [← h.2]
      cases nd0 with
      | node i0 l0 cs0 => rfl

/-- C4: in the neighbor-joining loop of `parseMatrix`, whenever
`cN > 2` and the chosen pair is `(minI, minJ)`, the step joins two
nodes whose branch lengths are exactly the spec's
`d1 = 0.5·D[i][j] + (R[i]−R[j])/(2·cN−4)` and `d2 = D[i][j] − d1`
(in that child order); and the final join of the two remaining active
indices gives both children length `D[minI][minJ]/2`. -/
theorem c4_nj_branch_lengths (st : NJState) (minI minJ : Nat) :
    (2 < st.cN → ∀ st2 t3, njStep st minI minJ = some (st2, t3) →
      ∃ n1 n2, t3 = Shape.node "" 0 [n1, n2] ∧
        n1.length = njSpecStepD1 st minI minJ ∧
        n2.length = njSpecStepD2 st minI minJ) ∧
    (∀ rest tree, st.indicesLeft = minI :: minJ :: rest →
      njFinal st = some tree →
      ∃ n1 n2, tree = Shape.node "" 0 [n1, n2] ∧
        n1.length = mGet st.d minI minJ / 2 ∧
        n2.length = mGet st.d minI minJ / 2) := by
  constructor
  · intro h2 st2 t3 h
    simp only [njStep] at h
    rcases hA : setUpNode st (st.currIndexToLabel.getD minI (-1))
        ((1/2 : Rat) * mGet st.d minI minJ +
          (lGet st.rowSums minI - lGet st.rowSums minJ) /
            (2 * (st.cN : Rat) - 4)) with _ | ⟨st1, node1⟩
    · simp only [hA] at h
      exact Option.noConfusion h
    · simp only [hA] at h
      rcases hB : setUpNode st1 (st.currIndexToLabel.getD minJ (-1))
          (mGet st.d minI minJ -
            ((1/2 : Rat) * mGet st.d minI minJ +
              (lGet st.rowSums minI - lGet st.rowSums minJ) /
                (2 * (st.cN : Rat) - 4))) with _ | ⟨stx, node2⟩
      · simp only [hB] at h
        exact Option.noConfusion h
      · simp only [hB] at h
        simp only [Option.some.injEq, Prod.mk.injEq] at h
        refine ⟨node1, node2, h.2.symm, ?_, ?_⟩
        · rw [setUpNode_length hA]
          rfl
        · rw [setUpNode_length hB]
          rfl
  · intro rest tree hleft h
    simp only [njFinal, hleft] at h
    rcases hA : setUpNode st (st.currIndexToLabel.getD minI (-1))
        (mGet st.d minI minJ / 2) with _ | ⟨st1, node1⟩
    · simp only [hA] at h
      exact Option.noConfusion h
    · simp only [hA] at h
      rcases hB : setUpNode st1 (st.currIndexToLabel.getD minJ (-1))
          (mGet st.d minI minJ / 2) with _ | ⟨stx, node2⟩
      · simp only [hB] at h
        exact Option.noConfusion h
      · simp only [hB] at h
        simp only [Option.some.injEq] at h
        refine ⟨node1, node2, h.symm, ?_, ?_⟩
        · exact setUpNode_length hA
        · exact setUpNode_length hB

/-- Three active taxa, about to run one agglomeration step. -/
def demoNJ : NJState where
  n := 3
  labels := ["a", "b", "c"]
  d := [[0, 2, 4], [2, 0, 6], [4, 6, 0]]
  rowSums := [6, 8, 10]
  cN := 3
  currIndexToLabel := [0, 1, 2]
  labelToNode := [none, none, none, none, none, none]
  nextIndex := 3
  removedIndices := []
  indicesLeft := [0, 1, 2]

/-- Two remaining active taxa, about to be joined under the final
root. -/
def demoNJ2 : NJState where
  n := 2
  labels := ["x", "y"]
  d := [[0, 5], [5, 0]]
  rowSums := [5, 5]
  cN := 2
  currIndexToLabel := [0, 1]
  labelToNode := [none, none, none, none]
  nextIndex := 2
  removedIndices := []
  indicesLeft := [0, 1]

/-- C4 witness: a concrete step on three taxa and a concrete final
join on two. -/
theorem c4_nj_branch_lengths_witness :
    2 < demoNJ.cN ∧
    (∃ st2 t3, njStep demoNJ 0 1 = some (st2, t3) ∧
      ∃ n1 n2, t3 = Shape.node "" 0 [n1, n2] ∧
        n1.length = njSpecStepD1 demoNJ 0 1 ∧
        n2.length = njSpecStepD2 demoNJ 0 1) ∧
    (demoNJ2.indicesLeft = 0 :: 1 :: [] ∧
      ∃ tree, njFinal demoNJ2 = some tree ∧
        ∃ n1 n2, tree = Shape.node "" 0 [n1, n2] ∧
          n1.length = mGet demoNJ2.d 0 1 / 2 ∧
          n2.length = mGet demoNJ2.d 0 1 / 2) := by
  refine ⟨by decide, ?_, rfl, ?_⟩
  · obtain ⟨n1, n2, hh⟩ :=
      (c4_nj_branch_lengths demoNJ 0 1).1 (by decide) _ _ rfl
    exact ⟨_, _, rfl, n1, n2, hh⟩
  · obtain ⟨n1, n2, hh⟩ :=
      (c4_nj_branch_lengths demoNJ2 0 1).2 [] _ rfl rfl
    exact ⟨_, rfl, n1, n2, hh⟩

/-! ### C6: `consolidate` (source lines 119-129)

```js
Branch.prototype.consolidate = function() {
  return this.eachAfter(branch => {
    if (branch.isRoot() || branch.length >= 0.0005) return;
    if(branch.parent.id == ""){
      branch.parent.id = branch.id;
    } else {
      branch.parent.id += '+'+branch.id;
    }
    branch.excise();
  }).fixDistances();
};
```

Modelled on pure trees: visiting a non-root node means recursing into
its (live) children array, then running the callback, which either
keeps the node or replaces it — in its parent's array — by its
children, each with `length += branch.length` (`excise`'s `eachChild`
pushes them at the end of the parent's array, then `splice` removes
the node at its own index).  `forEach`'s element range is capped at
the length on loop entry, so after a removal the element shifted into
the removed slot is skipped.  The callback merges the excised node's
`id` into the parent's, which is threaded through as `pid`. -/

/-- The parent-id merge of `consolidate`'s callback. -/
def mergeId (pid bid : String) : String :=
  if pid = "" then bid else pid ++ "+" ++ bid

/-- `child.length += this.length` of `excise`'s reattachment. -/
def bumpLen (l : Rat) : Tr → Tr
  | .node g i l0 v d h cs => .node g i (l0 + l) v d h cs

/-- Result of the callback on one node: kept in place, or excised and
replaced by its (bumped) children. -/
inductive ConsRes where
  | kept (t : Tr)
  | excised (repl : List Tr)

mutual
/-- `child.eachAfter(cb)` for `consolidate`'s callback on a non-root
node: process the children array, then run the callback (`pid` is the
parent's current `id`). -/
def consNode : Nat → Tr → String → Option (ConsRes × String)
  | 0, _, _ => none
  | fuel + 1, .node g i l v d h cs, pid =>
    match consArr fuel cs.length cs 0 i with
    | none => none
    | some (cs2, i2) =>
      if (1/2000 : Rat) ≤ l then some (.kept (.node g i2 l v d h cs2), pid)
      else some (.excised (cs2.map (bumpLen l)), mergeId pid i2)
termination_by fuel => (fuel, 0)
/-- The live `forEach` over a children array: `rem` counts the
remaining iterations of the bound captured at loop entry; a missing
index is skipped; a kept node is written back in place; an excised
node is dropped at its index with its bumped children appended. -/
def consArr : Nat → Nat → List Tr → Nat → String → Option (List Tr × String)
  | _, 0, arr, _, pid => some (arr, pid)
  | fuel, rem + 1, arr, k, pid =>
    match arr[k]? with
    | none => consArr fuel rem arr (k + 1) pid
    | some t =>
      match consNode fuel t pid with
      | none => none
      | some (.kept t2, pid1) => consArr fuel rem (arr.set k t2) (k + 1) pid1
      | some (.excised repl, pid1) =>
        consArr fuel rem (arr.eraseIdx k ++ repl) (k + 1) pid1
termination_by fuel rem => (fuel, rem + 1)
end

/-- `consolidate()` called on the root: run the pass over the root's
children (the callback on the root itself returns at the `isRoot()`
guard), then `fixDistances()`. -/
def consolidateT (fuel : Nat) : Tr → Option Tr
  | .node g i l v d h cs =>
    match consArr fuel cs.length cs 0 i with
    | none => none
    | some (cs2, i2) => some (fixDistancesT (.node g i2 l v d h cs2))

mutual
/-- All `(guid, root distance)` pairs of a subtree, where the distance
accumulates each node's own `length` on top of `acc`. -/
def nodeEntries : Tr → Rat → List (Nat × Rat)
  | .node g _ l _ _ _ cs, acc => (g, acc + l) :: nodeEntriesL cs (acc + l)
/-- `nodeEntries` over a forest sharing the accumulated distance. -/
def nodeEntriesL : List Tr → Rat → List (Nat × Rat)
  | [], _ => []
  | c :: rest, acc => nodeEntries c acc ++ nodeEntriesL rest acc
end

theorem nodeEntries_bumpLen (l : Rat) (c : Tr) (acc : Rat) :
    nodeEntries (bumpLen l c) acc = nodeEntries c (acc + l) := by
  cases c with
  | node g i l0 v d h cs =>
    rw [bumpLen, nodeEntries, nodeEntries]
    have hq : acc + (l0 + l) = acc + l + l0 := by ring
    rw [hq]

theorem nodeEntriesL_map_bump (l : Rat) (cs : List Tr) (acc : Rat) :
    nodeEntriesL (cs.map (bumpLen l)) acc = nodeEntriesL cs (acc + l) := by
  induction cs with
  | nil => rfl
  | cons c rest ih =>
    rw [List.map_cons, nodeEntriesL, nodeEntriesL, nodeEntries_bumpLen, ih]

theorem nodeEntriesL_mem_subset {arr : List Tr} {t : Tr} (h : t ∈ arr)
    (acc : Rat) : ∀ e ∈ nodeEntries t acc, e ∈ nodeEntriesL arr acc := by
  induction arr with
  | nil => cases h
  | cons c rest ih =>
    intro e he
    rw [nodeEntriesL, List.mem_append]
    rcases List.mem_cons.mp h with h1 | h1
    · subst h1
      exact Or.inl he
    · exact Or.inr (ih h1 e he)

theorem nodeEntriesL_eraseIdx_subset : ∀ (arr : List Tr) (k : Nat) (acc : Rat),
    ∀ e ∈ nodeEntriesL (arr.eraseIdx k) acc, e ∈ nodeEntriesL arr acc := by
  intro arr
  induction arr with
  | nil => intro k acc e he; exact he
  | cons c rest ih =>
    intro k acc e he
    cases k with
    | zero =>
      rw [List.eraseIdx] at he
      rw [nodeEntriesL, List.mem_append]
      exact Or.inr he
    | succ k =>
      rw [List.eraseIdx] at he
      rw [nodeEntriesL, List.mem_append] at he ⊢
      rcases he with h1 | h1
      · exact Or.inl h1
      · exact Or.inr (ih k acc e h1)

theorem nodeEntriesL_set_subset : ∀ (arr : List Tr) (k : Nat) (t t2 : Tr)
    (acc : Rat), arr[k]? = some t →
    (∀ e ∈ nodeEntries t2 acc, e ∈ nodeEntries t acc) →
    ∀ e ∈ nodeEntriesL (arr.set k t2) acc, e ∈ nodeEntriesL arr acc := by
  intro arr
  induction arr with
  | nil => intro k t t2 acc hk; simp at hk
  | cons c rest ih =>
    intro k t t2 acc hk hsub e he
    cases k with
    | zero =>
      simp only [List.getElem?_cons_zero, Option.some.injEq] at hk
      subst hk
      rw [List.set] at he
      rw [nodeEntriesL, List.mem_append] at he ⊢
      rcases he with h1 | h1
      · exact Or.inl (hsub e h1)
      · exact Or.inr h1
    | succ k =>
      simp only [List.getElem?_cons_succ] at hk
      rw [List.set] at he
      rw [nodeEntriesL, List.mem_append] at he ⊢
      rcases he with h1 | h1
      · exact Or.inl h1
      · exact Or.inr (ih k t t2 acc hk hsub e h1)

theorem nodeEntriesL_append (a b : List Tr) (acc : Rat) :
    nodeEntriesL (a ++ b) acc = nodeEntriesL a acc ++ nodeEntriesL b acc := by
  induction a with
  | nil => rfl
  | cons c rest ih =>
    rw [List.cons_append, nodeEntriesL, nodeEntriesL, ih, List.append_assoc]

/-- The entries contributed by a callback result in place of the
visited node. -/
def consResEntries : ConsRes → Rat → List (Nat × Rat)
  | .kept t2, acc => nodeEntries t2 acc
  | .excised repl, acc => nodeEntriesL repl acc

theorem consEntries : ∀ fuel : Nat,
    (∀ t pid res pid2, consNode fuel t pid = some (res, pid2) →
      ∀ acc, ∀ e ∈ consResEntries res acc, e ∈ nodeEntries t acc) ∧
    (∀ rem arr k pid arr2 pid2, consArr fuel rem arr k pid = some (arr2, pid2) →
      ∀ acc, ∀ e ∈ nodeEntriesL arr2 acc, e ∈ nodeEntriesL arr acc) := by
  intro fuel
  induction fuel with
  | zero =>
    constructor
    · intro t pid res pid2 h
      simp only [consNode] at h
      exact fun acc e he => Option.noConfusion h
    · intro rem
      induction rem with
      | zero =>
        intro arr k pid arr2 pid2 h
        simp only [consArr, Option.some.injEq, Prod.mk.injEq] at h
        obtain ⟨h1, h2⟩ := h
        subst h1
        exact fun acc e he => he
      | succ rem ihr =>
        intro arr k pid arr2 pid2 h
        simp only [consArr] at h
        cases hk : arr[k]? with
        | none =>
          simp only [hk] at h
          exact fun acc e he => ihr arr (k + 1) pid arr2 pid2 h acc e he
        | some t =>
          simp only [hk, consNode] at h
          exact fun acc e he => Option.noConfusion h
  | succ fuel ih =>
    have hN : ∀ t pid res pid2, consNode (fuel + 1) t pid = some (res, pid2) →
        ∀ acc, ∀ e ∈ consResEntries res acc, e ∈ nodeEntries t acc := by
      intro t pid res pid2 h acc e he
      cases t with
      | node g i l v d ht cs =>
        simp only [consNode] at h
        cases hA : consArr fuel cs.length cs 0 i with
        | none =>
          simp only [hA] at h
          exact Option.noConfusion h
        | some p =>
          obtain ⟨cs2, i2⟩ := p
          simp only [hA] at h
          by_cases hl : (1/2000 : Rat) ≤ l
          · rw [if_pos hl] at h
            simp only [Option.some.injEq, Prod.mk.injEq] at h
            obtain ⟨hres, hpid⟩ := h
            subst hres
            rw [consResEntries, nodeEntries] at he
            rw [nodeEntries]
            rcases List.mem_cons.mp he with h1 | h1
            · exact List.mem_cons.mpr (Or.inl h1)
            · exact List.mem_cons.mpr
                (Or.inr (ih.2 cs.length cs 0 i cs2 i2 hA (acc + l) e h1))
          · rw [if_neg hl] at h
            simp only [Option.some.injEq, Prod.mk.injEq] at h
            obtain ⟨hres, hpid⟩ := h
            subst hres
            rw [consResEntries, nodeEntriesL_map_bump] at he
            rw [nodeEntries]
            exact List.mem_cons.mpr
              (Or.inr (ih.2 cs.length cs 0 i cs2 i2 hA (acc + l) e he))
    have hAp : ∀ rem arr k pid arr2 pid2,
        consArr (fuel + 1) rem arr k pid = some (arr2, pid2) →
        ∀ acc, ∀ e ∈ nodeEntriesL arr2 acc, e ∈ nodeEntriesL arr acc := by
      intro rem
      induction rem with
      | zero =>
        intro arr k pid arr2 pid2 h
        simp only [consArr, Option.some.injEq, Prod.mk.injEq] at h
        obtain ⟨h1, h2⟩ := h
        subst h1
        exact fun acc e he => he
      | succ rem ihr =>
        intro arr k pid arr2 pid2 h acc e he
        simp only [consArr] at h
        cases hk : arr[k]? with
        | none =>
          simp only [hk] at h
          exact ihr arr (k + 1) pid arr2 pid2 h acc e he
        | some t =>
          simp only [hk] at h
          cases hcn : consNode (fuel + 1) t pid with
          | none =>
            simp only [hcn] at h
            exact Option.noConfusion h
          | some q =>
            obtain ⟨res, pid1⟩ := q
            simp only [hcn] at h
            cases res with
            | kept t2 =>
              have hstep := ihr (arr.set k t2) (k + 1) pid1 arr2 pid2 h acc e he
              refine nodeEntriesL_set_subset arr k t t2 acc hk ?_ e hstep
              intro e2 he2
              refine hN t pid (.kept t2) pid1 hcn acc e2 ?_
              rw [consResEntries]
              exact he2
            | excised repl =>
              have hstep := ihr (arr.eraseIdx k ++ repl) (k + 1) pid1 arr2 pid2 h acc e he
              rw [nodeEntriesL_append, List.mem_append] at hstep
              rcases hstep with h1 | h1
              · exact nodeEntriesL_eraseIdx_subset arr k acc e h1
              · have ht : t ∈ arr := List.getElem?_mem hk
                refine nodeEntriesL_mem_subset ht acc e ?_
                refine hN t pid (.excised repl) pid1 hcn acc e ?_
                rw [consResEntries]
                exact h1
    exact ⟨hN, hAp⟩

mutual
theorem nodeEntries_setDepths : ∀ (t : Tr) (d : Nat) (acc : Rat),
    nodeEntries (setDepths t d) acc = nodeEntries t acc
  | .node g i l v d0 h cs, d, acc => by
    rw [setDepths, nodeEntries, nodeEntries,
      nodeEntriesL_setDepths cs (d + 1) (acc + l)]
theorem nodeEntriesL_setDepths : ∀ (cs : List Tr) (d : Nat) (acc : Rat),
    nodeEntriesL (setDepthsL cs d) acc = nodeEntriesL cs acc
  | [], _, _ => rfl
  | c :: rest, d, acc => by
    rw [setDepthsL, nodeEntriesL, nodeEntriesL, nodeEntries_setDepths c d acc,
      nodeEntriesL_setDepths rest d acc]
end

mutual
theorem nodeEntries_setHV : ∀ (m : Nat) (t : Tr) (acc : Rat),
    nodeEntries (setHV m t) acc = nodeEntries t acc
  | m, .node g i l v d h cs, acc => by
    simp only [setHV, nodeEntries]
    rw [nodeEntriesL_setHV m cs (acc + l)]
theorem nodeEntriesL_setHV : ∀ (m : Nat) (cs : List Tr) (acc : Rat),
    nodeEntriesL (setHVL m cs) acc = nodeEntriesL cs acc
  | _, [], _ => rfl
  | m, c :: rest, acc => by
    rw [setHVL, nodeEntriesL, nodeEntriesL, nodeEntries_setHV m c acc,
      nodeEntriesL_setHV m rest acc]
end

theorem nodeEntries_fixDistancesT (t : Tr) (acc : Rat) :
    nodeEntries (fixDistancesT t) acc = nodeEntries t acc := by
  simp only [fixDistancesT]
  rw [nodeEntries_setHV, nodeEntries_setDepths]

/-- C6: the bookkeeping half of the claim holds: whenever
`consolidate()` returns, every node of the result is an original node
at exactly its original total root distance (`excise` adds the removed
branch's length onto each reattached child, and `fixDistances` touches
no length), so in particular every surviving leaf keeps its
root-to-leaf path length. -/
theorem c6_consolidate_path_lengths (fuel : Nat) (t t2 : Tr)
    (h : consolidateT fuel t = some t2) :
    ∀ e ∈ nodeEntries t2 0, e ∈ nodeEntries t 0 := by
  cases t with
  | node g i l v d ht cs =>
    simp only [consolidateT] at h
    cases hA : consArr fuel cs.length cs 0 i with
    | none =>
      simp only [hA] at h
      exact Option.noConfusion h
    | some p =>
      obtain ⟨cs2, i2⟩ := p
      simp only [hA, Option.some.injEq] at h
      subst h
      intro e he
      rw [nodeEntries_fixDistancesT, nodeEntries] at he
      rw [nodeEntries]
      rcases List.mem_cons.mp he with h1 | h1
      · exact List.mem_cons.mpr (Or.inl h1)
      · exact List.mem_cons.mpr
          (Or.inr ((consEntries fuel).2 cs.length cs 0 i cs2 i2 hA (0 + l) e h1))

/-- Demo tree for `consolidate`: a root with two adjacent zero-length
leaf children. -/
def demoT6 : Tr :=
  .node 0 "r" 0 1 0 0 [.node 1 "a" 0 1 0 0 [], .node 2 "b" 0 1 0 0 []]

theorem c6runAux : ∀ f : Nat,
    consolidateT (f + 1) demoT6 =
      some (fixDistancesT (.node 0 "r+a" 0 1 0 0 [.node 2 "b" 0 1 0 0 []])) := by
  intro f
  have hA : consNode (f + 1) (.node 1 "a" 0 1 0 0 []) "r" =
      some (.excised [], "r+a") := by
    simp only [consNode, List.length_nil, consArr]
    rw [if_neg (by norm_num)]
    rfl
  have hB : consArr (f + 1) (0 + 1) [Tr.node 2 "b" 0 1 0 0 []] 1 "r+a" =
      some ([.node 2 "b" 0 1 0 0 []], "r+a") := by
    simp only [consArr, List.getElem?_cons_succ, List.getElem?_nil]
  simp only [demoT6, consolidateT, List.length_cons, List.length_nil, consArr,
    List.getElem?_cons_zero, hA, List.eraseIdx_cons_zero, List.append_nil, hB]

/-- C6 (counterexample): `consolidate()` does NOT excise every non-root
branch below the threshold when short siblings are adjacent: on a root
with the two zero-length leaves `a` (guid 1) and `b` (guid 2), excising
`a` splices the children array during the live `forEach`, shifting `b`
into the visited slot, so `b` is never visited and survives with its
length `0 < 1/2000` (the JS `0.0005`). -/
theorem c6_counterexample :
    (consolidateT 10 demoT6).map
        (fun t => t.children.map (fun c => (c.guid, c.length))) =
      some [(2, 0)] ∧
    demoT6.children.map (fun c => (c.guid, c.length)) = [(1, 0), (2, 0)] ∧
    (0 : Rat) < 1 / 2000 := by
  refine ⟨?_, by decide, by norm_num⟩
  have hrun : consolidateT 10 demoT6 =
      some (fixDistancesT (.node 0 "r+a" 0 1 0 0 [.node 2 "b" 0 1 0 0 []])) :=
    c6runAux 9
  rw [hrun]
  decide

/-- C6 witness: the concrete `consolidate` run on `demoT6` satisfies
the path-length-preservation conclusion. -/
theorem c6_consolidate_path_lengths_witness :
    ∃ t2, consolidateT 10 demoT6 = some t2 ∧
      ∀ e ∈ nodeEntries t2 0, e ∈ nodeEntries demoT6 0 := by
  have hrun : consolidateT 10 demoT6 =
      some (fixDistancesT (.node 0 "r+a" 0 1 0 0 [.node 2 "b" 0 1 0 0 []])) :=
    c6runAux 9
  exact ⟨_, hrun, c6_consolidate_path_lengths 10 demoT6 _ hrun⟩

/-! ### C1: `toNewick` (source lines 874-884) and `parseNewick`
(source lines 1204-1237)

```js
Branch.prototype.toNewick = function(nonterminus) {
  let out = "";
  if (!this.isLeaf()) {
    out += "(" + this.children.map(child => child.toNewick(true)).join(",") + ")";
  }
  out += this.id;
  if (this.length) out += ":" + numberToString(this.length);
  if (!nonterminus) out += ";";
  return out;
};

function parseNewick(newick) {
  let ancestors = [],
    tree = new Branch(),
    tokens = newick.split(/\s*(;|\(|\)|,|:)\s*/),
    n = tokens.length;
  for (let t = 0; t < n; t++) {
    let token = tokens[t];
    let c;
    switch (token) {
      case "(": c = tree.addChild(); ancestors.push(tree); tree = c; break;
      case ",": c = ancestors[ancestors.length - 1].addChild(); tree = c; break;
      case ")": tree = ancestors.pop(); break;
      case ":": break;
      default:
        let x = tokens[t - 1];
        if (x == ")" || x == "(" || x == ",") { tree.id = token; }
        else if (x == ":") { tree.length = parseFloat(token); }
    }
  }
  return tree.fixDistances();
}
```

The trees here carry only the fields `toNewick` reads and `parseNewick`
writes (`id`, `length`, `children`), which is the `Shape` type; the
final `fixDistances()` writes none of those three.  `if (this.length)`
is number truthiness: the length is emitted iff it is nonzero.  The
float↔string codec (`numberToString`, `parseFloat`) is abstracted into
the parameters `numToStr`/`parseFl`.

`String.prototype.split` with a capture group returns the text pieces
between matches interleaved with the captured delimiter — including
EMPTY text pieces between adjacent delimiters, before a leading
delimiter and after a trailing one; the `\s*` on each side of the
delimiter strips whitespace adjacent to a delimiter (the tokenizer
below models the ASCII whitespace of `\s`; the serialized strings
contain none). -/

/-- The five Newick delimiter characters of the split regex. -/
def isDelimC (c : Char) : Bool :=
  c = ';' || c = '(' || c = ')' || c = ',' || c = ':'

/-- The whitespace class matched by the regex's `\s`: per ECMA-262,
tab, LF, VT, FF, CR, space, NBSP, ZWNBSP (U+FEFF), and the Unicode
`Space_Separator` characters (U+1680, U+2000-U+200A, U+2028, U+2029,
U+202F, U+205F, U+3000). -/
def isWsC (c : Char) : Bool :=
  c = ' ' || c = '\t' || c = '\n' || c = '\r' ||
  c = '\x0B' || c = '\x0C' || c = '\u00A0' || c = '\u1680' ||
  ('\u2000' ≤ c && c ≤ '\u200A') ||
  c = '\u2028' || c = '\u2029' || c = '\u202F' || c = '\u205F' ||
  c = '\u3000' || c = '\uFEFF'

/-- Strip the whitespace adjacent to a delimiter from the end of the
(reversed) accumulated text piece. -/
def trimTrail (acc : List Char) : List Char :=
  acc.dropWhile (fun c => isWsC c)

/-- The scanner of `split(/\s*(;|\(|\)|,|:)\s*/)`: texts between
delimiter matches, interleaved with the delimiters; `acc` is the
current text piece reversed; `skip` is set right after a delimiter so
that the whitespace its match consumed greedily is dropped. -/
def tokGo : List Char → List Char → Bool → List String
  | [], acc, _ => [String.mk acc.reverse]
  | c :: rest, acc, skip =>
    if isDelimC c then
      String.mk (trimTrail acc).reverse :: String.singleton c :: tokGo rest [] true
    else if isWsC c && skip && acc.isEmpty then tokGo rest [] true
    else tokGo rest (c :: acc) skip

/-- `newick.split(/\s*(;|\(|\)|,|:)\s*/)`. -/
def tokenize (s : String) : List String := tokGo s.data [] false

/-- A piece of serialized output: literal text, or one delimiter. -/
inductive NTok where
  | txt (s : String)
  | dl (c : Char)

/-- Concatenated characters of a piece list. -/
def rnd : List NTok → List Char
  | [] => []
  | .txt s :: rest => s.data ++ rnd rest
  | .dl c :: rest => c :: rnd rest

/-- What the split of the rendered pieces returns: every delimiter
becomes its own token, maximal text runs between delimiters become one
token each (empty when two delimiters are adjacent, or at the ends). -/
def splitToks : List NTok → List String
  | [] => [""]
  | .dl c :: rest => "" :: String.singleton c :: splitToks rest
  | .txt s :: rest =>
    match splitToks rest with
    | [] => [s]
    | t :: ts => (s ++ t) :: ts

/-- `","`-join of `Array.prototype.join`. -/
def joinComma : List String → String
  | [] => ""
  | [s] => s
  | s :: rest => s ++ "," ++ joinComma rest

mutual
/-- `Branch.toNewick(nonterminus)` over the identity fields. -/
def toNewickSh (numToStr : Rat → String) : Bool → Shape → String
  | nonterm, .node i l cs =>
    (if cs.length = 0 then "" else
      "(" ++ joinComma (toNewickShL numToStr cs) ++ ")")
    ++ i
    ++ (if l = 0 then "" else ":" ++ numToStr l)
    ++ (if nonterm then "" else ";")
/-- `children.map(child => child.toNewick(true))`. -/
def toNewickShL (numToStr : Rat → String) : List Shape → List String
  | [] => []
  | c :: rest => toNewickSh numToStr true c :: toNewickShL numToStr rest
end

mutual
/-- `toNewick` output as a piece list (texts and delimiters). -/
def toNewickToks (numToStr : Rat → String) : Bool → Shape → List NTok
  | nonterm, .node i l cs =>
    (if cs.length = 0 then [] else
      .dl '(' :: toNewickToksL numToStr cs ++ [.dl ')'])
    ++ [.txt i]
    ++ (if l = 0 then [] else [.dl ':', .txt (numToStr l)])
    ++ (if nonterm then [] else [.dl ';'])
/-- Children pieces joined on `','`. -/
def toNewickToksL (numToStr : Rat → String) : List Shape → List NTok
  | [] => []
  | [c] => toNewickToks numToStr true c
  | c :: rest => toNewickToks numToStr true c ++ .dl ',' :: toNewickToksL numToStr rest
end

/-- One step state of `parseNewick`'s loop: the node `tree` points at,
as its three written fields (children built so far last). -/
abbrev PCur := String × Rat × List Shape

/-- The `default:` case of the switch — dispatch on `tokens[t-1]`
(`none` at `t = 0`): after `")"`/`"("`/`","` the token is the id,
after `":"` it is the length; otherwise nothing is written. -/
def pnDefault (parseFl : String → Rat) (tok : String) (prev : Option String)
    (cur : PCur) : PCur :=
  match prev with
  | none => cur
  | some x =>
    if x = ")" ∨ x = "(" ∨ x = "," then (tok, cur.2.1, cur.2.2)
    else if x = ":" then (cur.1, parseFl tok, cur.2.2)
    else cur

/-- The token loop of `parseNewick`: `prev` is `tokens[t-1]` (`none` at
`t = 0`), `cur` the node `tree` points at, `stack` the `ancestors`
frames (each the fields of a node whose children group is open).
`","`/`")"` with an empty `ancestors` stack dereferences `undefined`
in the source, hence `none`. -/
def pnGo (parseFl : String → Rat) :
    List String → Option String → PCur → List PCur → Option Shape
  | [], _, cur, _ => some (Shape.node cur.1 cur.2.1 cur.2.2)
  | tok :: rest, prev, cur, stack =>
    if tok = "(" then
      pnGo parseFl rest (some tok) ("", 0, []) (cur :: stack)
    else if tok = "," then
      match stack with
      | [] => none
      | (fi, fl, fk) :: stk =>
        pnGo parseFl rest (some tok) ("", 0, [])
          ((fi, fl, fk ++ [Shape.node cur.1 cur.2.1 cur.2.2]) :: stk)
    else if tok = ")" then
      match stack with
      | [] => none
      | (fi, fl, fk) :: stk =>
        pnGo parseFl rest (some tok)
          (fi, fl, fk ++ [Shape.node cur.1 cur.2.1 cur.2.2]) stk
    else if tok = ":" then pnGo parseFl rest (some tok) cur stack
    else pnGo parseFl rest (some tok) (pnDefault parseFl tok prev cur) stack

/-- `parseNewick`: tokenize, run the loop from a fresh root
(`new Branch()`: id `""`, length `0`), return the node `tree` points
at (`fixDistances` writes no identity field). -/
def parseNewickT (parseFl : String → Rat) (s : String) : Option Shape :=
  pnGo parseFl (tokenize s) none ("", 0, []) []

/-- A text piece that survives tokenization unchanged: no delimiter
and no whitespace characters. -/
def cleanStr (s : String) : Bool :=
  s.data.all (fun c => !(isDelimC c) && !(isWsC c))

mutual
/-- The hypotheses of the round trip: every `id` in the tree is clean,
and every nonzero `length` serializes to a clean numeral that parses
back exactly. -/
def codecOKB (numToStr : Rat → String) (parseFl : String → Rat) : Shape → Bool
  | .node i l cs =>
    cleanStr i &&
    (l == 0 || (cleanStr (numToStr l) && parseFl (numToStr l) == l)) &&
    codecOKBL numToStr parseFl cs
/-- `codecOKB` over a children list. -/
def codecOKBL (numToStr : Rat → String) (parseFl : String → Rat) :
    List Shape → Bool
  | [] => true
  | c :: rest => codecOKB numToStr parseFl c && codecOKBL numToStr parseFl rest
end

/-- C1 (counterexample): the round trip loses a leaf root's `id`: a
valid single-node tree with id `"A"` serializes to `"A;"`, whose token
list is `["A", ";", ""]` — the token `"A"` sits at `t = 0`, where
`tokens[t-1]` is `undefined`, so the parser's default case matches
neither `")"`/`"("`/`","` nor `":"` and never assigns the id.  The
parse result has id `""`, not `"A"`. -/
theorem c1_counterexample :
    toNewickSh (fun _ => "0") false (Shape.node "A" 0 []) = "A;" ∧
    tokenize "A;" = ["A", ";", ""] ∧
    (parseNewickT (fun _ => 0) "A;").map Shape.id = some "" ∧
    ("" : String) ≠ "A" := by
  refine ⟨by decide, by decide, by decide, by decide⟩

/-- All text pieces clean, all delimiter pieces actual delimiters. -/
def cleanToks : List NTok → Bool
  | [] => true
  | .txt s :: rest => cleanStr s && cleanToks rest
  | .dl c :: rest => isDelimC c && cleanToks rest

theorem tokGo_cleanText : ∀ (cs rest acc : List Char) (skip : Bool),
    cs.all (fun c => !(isDelimC c) && !(isWsC c)) = true →
    tokGo (cs ++ rest) acc skip = tokGo rest (cs.reverse ++ acc) skip := by
  intro cs
  induction cs with
  | nil => intro rest acc skip h; simp
  | cons c cs ih =>
    intro rest acc skip h
    simp only [List.all_cons, Bool.and_eq_true] at h
    have hd : isDelimC c = false := by
      have h2 := h.1.1
      revert h2
      cases isDelimC c <;> simp
    have hw : isWsC c = false := by
      have h2 := h.1.2
      revert h2
      cases isWsC c <;> simp
    rw [List.cons_append, tokGo, if_neg (by simp [hd]), if_neg (by simp [hw])]
    rw [ih rest (c :: acc) skip h.2]
    have h3 : cs.reverse ++ c :: acc = (c :: cs).reverse ++ acc := by simp
    rw [h3]

theorem trimTrail_clean (acc : List Char)
    (h : acc.all (fun c => !(isDelimC c) && !(isWsC c)) = true) :
    trimTrail acc = acc := by
  cases acc with
  | nil => rfl
  | cons a l =>
    simp only [List.all_cons, Bool.and_eq_true] at h
    have hw : isWsC a = false := by
      have h2 := h.1.2
      revert h2
      cases isWsC a <;> simp
    rw [trimTrail, List.dropWhile_cons, if_neg (by simp [hw])]

theorem splitToks_ne : ∀ ts : List NTok, splitToks ts ≠ [] := by
  intro ts
  cases ts with
  | nil => simp [splitToks]
  | cons t rest =>
    cases t with
    | dl c => simp [splitToks]
    | txt s =>
      rw [splitToks]
      cases splitToks rest with
      | nil => simp
      | cons h2 t2 => simp

theorem tokGo_spec : ∀ ts : List NTok, cleanToks ts = true →
    ∀ acc : List Char, acc.all (fun c => !(isDelimC c) && !(isWsC c)) = true →
    ∀ skip : Bool,
    tokGo (rnd ts) acc skip =
      (String.mk acc.reverse ++ (splitToks ts).headD "") :: (splitToks ts).tail := by
  intro ts
  induction ts with
  | nil =>
    intro hc acc ha skip
    rw [rnd, tokGo, splitToks]
    simp [String.append_empty]
  | cons t rest ih =>
    intro hc acc ha skip
    cases t with
    | dl c =>
      rw [cleanToks, Bool.and_eq_true] at hc
      rw [rnd, tokGo, if_pos (by simp [hc.1]), trimTrail_clean acc ha,
        ih hc.2 [] (by simp) true]
      cases hrest : splitToks rest with
      | nil => exact absurd hrest (splitToks_ne rest)
      | cons hh tt =>
        rw [splitToks, hrest]
        simp [String.empty_append, String.append_empty]
    | txt s =>
      rw [cleanToks, Bool.and_eq_true] at hc
      rw [rnd, tokGo_cleanText s.data (rnd rest) acc skip hc.1,
        ih hc.2 (s.data.reverse ++ acc) (by
          rw [List.all_append]
          simp only [Bool.and_eq_true]
          refine ⟨?_, ha⟩
          rw [List.all_reverse]
          exact hc.1) skip]
      cases hrest : splitToks rest with
      | nil => exact absurd hrest (splitToks_ne rest)
      | cons hh tt =>
        rw [splitToks, hrest]
        simp only [List.headD, List.tail]
        have h4 : (s.data.reverse ++ acc).reverse = acc.reverse ++ s.data := by
          simp
        rw [h4]
        have h5 : String.mk (acc.reverse ++ s.data) =
            String.mk acc.reverse ++ s := rfl
        rw [h5, String.append_assoc]

theorem tokenize_toks (ts : List NTok) (hc : cleanToks ts = true) :
    tokenize (String.mk (rnd ts)) = splitToks ts := by
  rw [tokenize]
  have h1 : (String.mk (rnd ts)).data = rnd ts := rfl
  rw [h1, tokGo_spec ts hc [] (by simp) false]
  cases hrest : splitToks ts with
  | nil => exact absurd hrest (splitToks_ne ts)
  | cons hh tt =>
    simp [String.empty_append]

theorem rnd_append : ∀ a b : List NTok, rnd (a ++ b) = rnd a ++ rnd b := by
  intro a
  induction a with
  | nil => intro b; rfl
  | cons t rest ih =>
    intro b
    cases t with
    | txt s => rw [List.cons_append, rnd, rnd, ih, List.append_assoc]
    | dl c => rw [List.cons_append, rnd, rnd, ih, List.cons_append]

mutual
theorem toNewickSh_data : ∀ (numToStr : Rat → String) (nt : Bool) (sh : Shape),
    (toNewickSh numToStr nt sh).data = rnd (toNewickToks numToStr nt sh)
  | numToStr, nt, .node i l cs => by
    rw [toNewickSh, toNewickToks]
    have hlp : ("(" : String).data = ['('] := rfl
    have hrp : (")" : String).data = [')'] := rfl
    have hcl : (":" : String).data = [':'] := rfl
    have hkids : (if cs.length = 0 then "" else
        "(" ++ joinComma (toNewickShL numToStr cs) ++ ")").data =
        rnd (if cs.length = 0 then [] else
          .dl '(' :: toNewickToksL numToStr cs ++ [.dl ')']) := by
      by_cases hcs : cs.length = 0
      · rw [if_pos hcs, if_pos hcs]; rfl
      · rw [if_neg hcs, if_neg hcs]
        have h6 : rnd (NTok.dl '(' :: toNewickToksL numToStr cs ++ [NTok.dl ')']) =
            '(' :: rnd (toNewickToksL numToStr cs ++ [NTok.dl ')']) := rfl
        have h7 : rnd [NTok.dl ')'] = [')'] := rfl
        rw [h6, rnd_append, h7, String.data_append, String.data_append, hlp, hrp,
          toNewickShL_data numToStr cs]
        simp
    have hlen : (if l = 0 then "" else ":" ++ numToStr l).data =
        rnd (if l = 0 then [] else [.dl ':', .txt (numToStr l)]) := by
      by_cases hl : l = 0
      · rw [if_pos hl, if_pos hl]; rfl
      · rw [if_neg hl, if_neg hl, String.data_append, hcl]
        have h8 : rnd [NTok.dl ':', NTok.txt (numToStr l)] =
            ':' :: ((numToStr l).data ++ []) := rfl
        rw [h8, List.append_nil]
        simp
    have hnt : (if nt then "" else ";").data =
        rnd (if nt then ([] : List NTok) else [.dl ';']) := by
      cases nt with
      | true => rfl
      | false => rfl
    rw [String.data_append, String.data_append, String.data_append,
      rnd_append, rnd_append, rnd_append, hkids, hlen, hnt]
    have h9 : rnd [NTok.txt i] = i.data ++ [] := rfl
    rw [h9, List.append_nil]
theorem toNewickShL_data : ∀ (numToStr : Rat → String) (cs : List Shape),
    (joinComma (toNewickShL numToStr cs)).data = rnd (toNewickToksL numToStr cs)
  | numToStr, [] => by rfl
  | numToStr, [c] => by
    have h1 : joinComma (toNewickShL numToStr [c]) =
        toNewickSh numToStr true c := rfl
    have h2 : toNewickToksL numToStr [c] = toNewickToks numToStr true c := rfl
    rw [h1, h2]
    exact toNewickSh_data numToStr true c
  | numToStr, c :: c2 :: rest => by
    have hj : joinComma (toNewickShL numToStr (c :: c2 :: rest)) =
        toNewickSh numToStr true c ++ "," ++
          joinComma (toNewickShL numToStr (c2 :: rest)) := rfl
    have ht : toNewickToksL numToStr (c :: c2 :: rest) =
        toNewickToks numToStr true c ++
          .dl ',' :: toNewickToksL numToStr (c2 :: rest) := rfl
    rw [hj, ht, String.data_append, String.data_append, rnd_append,
      toNewickSh_data numToStr true c]
    have h2 : ("," : String).data = [','] := rfl
    have h3 : rnd (NTok.dl ',' :: toNewickToksL numToStr (c2 :: rest)) =
        ',' :: rnd (toNewickToksL numToStr (c2 :: rest)) := rfl
    rw [h2, h3, toNewickShL_data numToStr (c2 :: rest)]
    simp
end

theorem cleanToks_append : ∀ a b : List NTok,
    cleanToks (a ++ b) = (cleanToks a && cleanToks b) := by
  intro a
  induction a with
  | nil => intro b; simp [cleanToks]
  | cons t rest ih =>
    intro b
    cases t with
    | txt s =>
      rw [List.cons_append, cleanToks, cleanToks, ih, Bool.and_assoc]
    | dl c =>
      rw [List.cons_append, cleanToks, cleanToks, ih, Bool.and_assoc]

mutual
theorem toNewickToks_clean : ∀ (numToStr : Rat → String) (parseFl : String → Rat)
    (nt : Bool) (sh : Shape), codecOKB numToStr parseFl sh = true →
    cleanToks (toNewickToks numToStr nt sh) = true
  | numToStr, parseFl, nt, .node i l cs => by
    intro h
    rw [codecOKB] at h
    simp only [Bool.and_eq_true, Bool.or_eq_true, beq_iff_eq] at h
    rw [toNewickToks, cleanToks_append, cleanToks_append, cleanToks_append]
    simp only [Bool.and_eq_true]
    refine ⟨⟨⟨?_, ?_⟩, ?_⟩, ?_⟩
    · by_cases hcs : cs.length = 0
      · rw [if_pos hcs]; rfl
      · rw [if_neg hcs]
        have h5 : cleanToks (NTok.dl '(' :: toNewickToksL numToStr cs ++
            [NTok.dl ')']) =
            (isDelimC '(' && cleanToks (toNewickToksL numToStr cs ++
              [NTok.dl ')'])) := rfl
        rw [h5, cleanToks_append]
        simp only [Bool.and_eq_true]
        refine ⟨rfl, toNewickToksL_clean numToStr parseFl cs h.2, rfl⟩
    · have h5 : cleanToks [NTok.txt i] = (cleanStr i && true) := rfl
      rw [h5]
      simp only [Bool.and_eq_true]
      exact ⟨h.1.1, trivial⟩
    · by_cases hl : l = 0
      · rw [if_pos hl]; rfl
      · rw [if_neg hl]
        have h5 : cleanToks [NTok.dl ':', NTok.txt (numToStr l)] =
            (isDelimC ':' && (cleanStr (numToStr l) && true)) := rfl
        rw [h5]
        simp only [Bool.and_eq_true]
        rcases h.1.2 with h2 | h2
        · exact absurd h2 hl
        · exact ⟨rfl, h2.1, trivial⟩
    · cases nt with
      | true => rfl
      | false => rfl
theorem toNewickToksL_clean : ∀ (numToStr : Rat → String) (parseFl : String → Rat)
    (cs : List Shape), codecOKBL numToStr parseFl cs = true →
    cleanToks (toNewickToksL numToStr cs) = true
  | numToStr, parseFl, [] => by intro h; rfl
  | numToStr, parseFl, [c] => by
    intro h
    rw [codecOKBL] at h
    simp only [Bool.and_eq_true] at h
    have h1 : toNewickToksL numToStr [c] = toNewickToks numToStr true c := rfl
    rw [h1]
    exact toNewickToks_clean numToStr parseFl true c h.1
  | numToStr, parseFl, c :: c2 :: rest => by
    intro h
    rw [codecOKBL] at h
    simp only [Bool.and_eq_true] at h
    have h1 : toNewickToksL numToStr (c :: c2 :: rest) =
        toNewickToks numToStr true c ++
          .dl ',' :: toNewickToksL numToStr (c2 :: rest) := rfl
    have h6 : cleanToks (NTok.dl ',' :: toNewickToksL numToStr (c2 :: rest)) =
        (isDelimC ',' && cleanToks (toNewickToksL numToStr (c2 :: rest))) := rfl
    rw [h1, cleanToks_append, h6]
    simp only [Bool.and_eq_true]
    exact ⟨toNewickToks_clean numToStr parseFl true c h.1, rfl,
      toNewickToksL_clean numToStr parseFl (c2 :: rest) h.2⟩
end

theorem splitToks_txt_dl (s : String) (K : List NTok)
    (hK : K = [] ∨ ∃ c K', K = NTok.dl c :: K') :
    splitToks (.txt s :: K) = s :: (splitToks K).tail := by
  rcases hK with rfl | ⟨c, K', rfl⟩
  · have h1 : splitToks [NTok.txt s] = [s ++ ""] := rfl
    rw [h1, String.append_empty]
    rfl
  · have h1 : splitToks (NTok.txt s :: NTok.dl c :: K') =
        (s ++ "") :: String.singleton c :: splitToks K' := rfl
    rw [h1, String.append_empty]
    rfl

theorem pnGo_nil (pf : String → Rat) (p : Option String) (cur : PCur)
    (st : List PCur) :
    pnGo pf [] p cur st = some (Shape.node cur.1 cur.2.1 cur.2.2) := rfl

theorem pnGo_lparen (pf : String → Rat) (r : List String) (p : Option String)
    (cur : PCur) (st : List PCur) :
    pnGo pf ("(" :: r) p cur st =
      pnGo pf r (some "(") ("", 0, []) (cur :: st) := rfl

theorem pnGo_comma_cons (pf : String → Rat) (r : List String) (p : Option String)
    (cur : PCur) (fi : String) (fl : Rat) (fk : List Shape) (st : List PCur) :
    pnGo pf ("," :: r) p cur ((fi, fl, fk) :: st) =
      pnGo pf r (some ",") ("", 0, [])
        ((fi, fl, fk ++ [Shape.node cur.1 cur.2.1 cur.2.2]) :: st) := rfl

theorem pnGo_rparen_cons (pf : String → Rat) (r : List String) (p : Option String)
    (cur : PCur) (fi : String) (fl : Rat) (fk : List Shape) (st : List PCur) :
    pnGo pf (")" :: r) p cur ((fi, fl, fk) :: st) =
      pnGo pf r (some ")")
        (fi, fl, fk ++ [Shape.node cur.1 cur.2.1 cur.2.2]) st := rfl

theorem pnGo_colon (pf : String → Rat) (r : List String) (p : Option String)
    (cur : PCur) (st : List PCur) :
    pnGo pf (":" :: r) p cur st = pnGo pf r (some ":") cur st := rfl

theorem pnGo_text (pf : String → Rat) (tok : String) (r : List String)
    (prev : Option String) (cur : PCur) (st : List PCur)
    (h1 : ¬ tok = "(") (h2 : ¬ tok = ",") (h3 : ¬ tok = ")") (h4 : ¬ tok = ":") :
    pnGo pf (tok :: r) prev cur st =
      pnGo pf r (some tok) (pnDefault pf tok prev cur) st := by
  rw [pnGo.eq_def]
  simp only [h1, h2, h3, h4, if_false]

theorem pnDefault_none (pf : String → Rat) (tok : String) (cur : PCur) :
    pnDefault pf tok none cur = cur := rfl

theorem pnDefault_opener (pf : String → Rat) (tok x : String) (cur : PCur)
    (hx : x = ")" ∨ x = "(" ∨ x = ",") :
    pnDefault pf tok (some x) cur = (tok, cur.2.1, cur.2.2) := by
  rw [pnDefault, if_pos hx]

theorem pnDefault_colon (pf : String → Rat) (tok : String) (cur : PCur) :
    pnDefault pf tok (some ":") cur = (cur.1, pf tok, cur.2.2) := rfl

theorem pnDefault_other (pf : String → Rat) (tok x : String) (cur : PCur)
    (hx : ¬ (x = ")" ∨ x = "(" ∨ x = ",")) (hc : ¬ x = ":") :
    pnDefault pf tok (some x) cur = cur := by
  rw [pnDefault, if_neg hx, if_neg hc]

/-- A `tokens[t-1]` value that triggers no assignment in the default
case: absent, or a token that is none of `")"`, `"("`, `","`, `":"`. -/
def benignPrev : Option String → Prop
  | none => True
  | some x => ¬ x = ")" ∧ ¬ x = "(" ∧ ¬ x = "," ∧ ¬ x = ":"

theorem pnDefault_benign (pf : String → Rat) (tok : String) (p : Option String)
    (cur : PCur) (hb : benignPrev p) : pnDefault pf tok p cur = cur := by
  cases p with
  | none => rfl
  | some x =>
    rw [benignPrev] at hb
    exact pnDefault_other pf tok x cur (by tauto) hb.2.2.2

theorem pnGo_prev_benign (pf : String → Rat) (r : List String) (cur : PCur)
    (st : List PCur) (p1 p2 : Option String) (h1 : benignPrev p1)
    (h2 : benignPrev p2) : pnGo pf r p1 cur st = pnGo pf r p2 cur st := by
  cases r with
  | nil => rfl
  | cons tok r2 =>
    by_cases ht1 : tok = "("
    · subst ht1
      rfl
    · by_cases ht2 : tok = ","
      · subst ht2
        rfl
      · by_cases ht3 : tok = ")"
        · subst ht3
          rfl
        · by_cases ht4 : tok = ":"
          · subst ht4
            rfl
          · rw [pnGo_text pf tok r2 p1 cur st ht1 ht2 ht3 ht4,
              pnGo_text pf tok r2 p2 cur st ht1 ht2 ht3 ht4,
              pnDefault_benign pf tok p1 cur h1,
              pnDefault_benign pf tok p2 cur h2]

theorem cleanStr_ne_delim (s : String) (h : cleanStr s = true) :
    ¬ s = "(" ∧ ¬ s = "," ∧ ¬ s = ")" ∧ ¬ s = ":" := by
  refine ⟨?_, ?_, ?_, ?_⟩ <;> intro he <;> subst he <;> revert h <;> decide

theorem Shape.eta (sh : Shape) :
    Shape.node sh.id sh.length sh.children = sh := by
  cases sh with
  | node i l cs => rfl

theorem benignPrev_of_clean (s : String) (h : cleanStr s = true) :
    benignPrev (some s) := by
  have h2 := cleanStr_ne_delim s h
  rw [benignPrev]
  exact ⟨h2.2.2.1, h2.1, h2.2.1, h2.2.2.2⟩

theorem pnTail (numToStr : Rat → String) (parseFl : String → Rat) (i : String)
    (l : Rat) (kids : List Shape) (hci : cleanStr i = true)
    (hlen : l = 0 ∨ (cleanStr (numToStr l) = true ∧ parseFl (numToStr l) = l))
    (K : List NTok) (hK : K = [] ∨ ∃ c K2, K = NTok.dl c :: K2)
    (p : String) (hp : p = ")" ∨ p = "(" ∨ p = ",") (stack : List PCur) :
    pnGo parseFl (splitToks (NTok.txt i ::
        ((if l = 0 then [] else [NTok.dl ':', NTok.txt (numToStr l)]) ++ K)))
        (some p) ("", 0, kids) stack =
      pnGo parseFl ((splitToks K).tail) none (i, l, kids) stack := by
  have hi4 := cleanStr_ne_delim i hci
  by_cases hl : l = 0
  · rw [if_pos hl, List.nil_append, splitToks_txt_dl i K hK,
      pnGo_text parseFl i ((splitToks K).tail) (some p) ("", 0, kids) stack
        hi4.1 hi4.2.1 hi4.2.2.1 hi4.2.2.2,
      pnDefault_opener parseFl i p ("", 0, kids) hp]
    subst hl
    exact pnGo_prev_benign parseFl ((splitToks K).tail) (i, 0, kids) stack
      (some i) none (benignPrev_of_clean i hci) trivial
  · rw [if_neg hl]
    rcases hlen with h0 | ⟨hcn, hpn⟩
    · exact absurd h0 hl
    have hn4 := cleanStr_ne_delim (numToStr l) hcn
    have hs1 : (NTok.txt i :: ([NTok.dl ':', NTok.txt (numToStr l)] ++ K)) =
        NTok.txt i :: NTok.dl ':' :: NTok.txt (numToStr l) :: K := rfl
    rw [hs1]
    have hs2 : splitToks (NTok.txt i :: NTok.dl ':' ::
        NTok.txt (numToStr l) :: K) =
        (i ++ "") :: String.singleton ':' ::
          splitToks (NTok.txt (numToStr l) :: K) := rfl
    have hs3 : String.singleton ':' = ":" := rfl
    rw [hs2, hs3, String.append_empty,
      splitToks_txt_dl (numToStr l) K hK,
      pnGo_text parseFl i (":" :: numToStr l :: (splitToks K).tail) (some p)
        ("", 0, kids) stack hi4.1 hi4.2.1 hi4.2.2.1 hi4.2.2.2,
      pnDefault_opener parseFl i p ("", 0, kids) hp,
      pnGo_colon parseFl (numToStr l :: (splitToks K).tail) (some i)
        (i, 0, kids) stack,
      pnGo_text parseFl (numToStr l) ((splitToks K).tail) (some ":")
        (i, 0, kids) stack hn4.1 hn4.2.1 hn4.2.2.1 hn4.2.2.2,
      pnDefault_colon parseFl (numToStr l) (i, 0, kids)]
    rw [hpn]
    exact pnGo_prev_benign parseFl ((splitToks K).tail) (i, l, kids) stack
      (some (numToStr l)) none (benignPrev_of_clean (numToStr l) hcn) trivial

mutual
theorem pnP : ∀ (numToStr : Rat → String) (parseFl : String → Rat) (sh : Shape),
    codecOKB numToStr parseFl sh = true →
    ∀ (K : List NTok), (K = [] ∨ ∃ c K2, K = NTok.dl c :: K2) →
    ∀ (prev0 : Option String),
      (prev0 = some "(" ∨ prev0 = some "," ∨
        (prev0 = none ∧ sh.children.length ≠ 0)) →
    ∀ (stack : List PCur),
    pnGo parseFl (splitToks (toNewickToks numToStr true sh ++ K)) prev0
        ("", 0, []) stack =
      pnGo parseFl ((splitToks K).tail) none
        (sh.id, sh.length, sh.children) stack
  | numToStr, parseFl, .node i l cs => by
    intro hcodec K hK prev0 hprev stack
    rw [codecOKB] at hcodec
    simp only [Bool.and_eq_true, Bool.or_eq_true, beq_iff_eq] at hcodec
    have hid : Shape.id (Shape.node i l cs) = i := rfl
    have hln : Shape.length (Shape.node i l cs) = l := rfl
    have hch : Shape.children (Shape.node i l cs) = cs := rfl
    rw [hid, hln, hch]
    by_cases hcs : cs.length = 0
    · have hcs0 : cs = [] := List.length_eq_zero.mp hcs
      subst hcs0
      have hprev2 : prev0 = some "(" ∨ prev0 = some "," := by
        rcases hprev with h | h | h
        · exact Or.inl h
        · exact Or.inr h
        · exact absurd hcs h.2
      have hT : toNewickToks numToStr true (Shape.node i l []) ++ K =
          NTok.txt i ::
            ((if l = 0 then [] else [NTok.dl ':', NTok.txt (numToStr l)]) ++ K) := by
        rw [toNewickToks, if_pos rfl]
        simp [List.append_assoc]
      rw [hT]
      rcases hprev2 with rfl | rfl
      · exact pnTail numToStr parseFl i l [] hcodec.1.1 hcodec.1.2 K hK "("
          (Or.inr (Or.inl rfl)) stack
      · exact pnTail numToStr parseFl i l [] hcodec.1.1 hcodec.1.2 K hK ","
          (Or.inr (Or.inr rfl)) stack
    · have hne : cs ≠ [] := fun h => hcs (by rw [h]; rfl)
      have hT : toNewickToks numToStr true (Shape.node i l cs) ++ K =
          NTok.dl '(' :: (toNewickToksL numToStr cs ++ (NTok.dl ')' ::
            (NTok.txt i ::
              ((if l = 0 then [] else [NTok.dl ':', NTok.txt (numToStr l)]) ++
                K)))) := by
        rw [toNewickToks, if_neg hcs]
        simp [List.append_assoc]
      rw [hT]
      have hs1 : splitToks (NTok.dl '(' :: (toNewickToksL numToStr cs ++
          (NTok.dl ')' :: (NTok.txt i ::
            ((if l = 0 then [] else [NTok.dl ':', NTok.txt (numToStr l)]) ++
              K))))) =
          "" :: "(" :: splitToks (toNewickToksL numToStr cs ++ (NTok.dl ')' ::
            (NTok.txt i ::
              ((if l = 0 then [] else [NTok.dl ':', NTok.txt (numToStr l)]) ++
                K)))) := rfl
      rw [hs1]
      have he4 : ¬ ("" : String) = "(" ∧ ¬ ("" : String) = "," ∧
          ¬ ("" : String) = ")" ∧ ¬ ("" : String) = ":" := by decide
      rw [pnGo_text parseFl "" _ prev0 ("", 0, []) stack
        he4.1 he4.2.1 he4.2.2.1 he4.2.2.2]
      have hcur : pnDefault parseFl "" prev0 ("", 0, []) = ("", 0, []) := by
        rcases hprev with rfl | rfl | ⟨rfl, h⟩
        · rw [pnDefault_opener parseFl "" "(" ("", 0, [])
            (Or.inr (Or.inl rfl))]
        · rw [pnDefault_opener parseFl "" "," ("", 0, [])
            (Or.inr (Or.inr rfl))]
        · rfl
      rw [hcur, pnGo_lparen]
      rw [pnPL numToStr parseFl cs hne hcodec.2
        (NTok.dl ')' :: (NTok.txt i ::
          ((if l = 0 then [] else [NTok.dl ':', NTok.txt (numToStr l)]) ++ K)))
        (Or.inr ⟨')', _, rfl⟩) (some "(") (Or.inl rfl) "" 0 [] stack]
      have hs2 : (splitToks (NTok.dl ')' :: (NTok.txt i ::
          ((if l = 0 then [] else [NTok.dl ':', NTok.txt (numToStr l)]) ++
            K)))).tail =
          ")" :: splitToks (NTok.txt i ::
            ((if l = 0 then [] else [NTok.dl ':', NTok.txt (numToStr l)]) ++
              K)) := rfl
      rw [hs2, pnGo_rparen_cons]
      have hlast : Shape.node ((cs.getLast hne).id) ((cs.getLast hne).length)
          ((cs.getLast hne).children) = cs.getLast hne := Shape.eta _
      rw [hlast]
      have hkids : ([] : List Shape) ++ cs.dropLast ++ [cs.getLast hne] = cs := by
        rw [List.nil_append, List.dropLast_append_getLast hne]
      rw [hkids]
      exact pnTail numToStr parseFl i l cs hcodec.1.1 hcodec.1.2 K hK ")"
        (Or.inl rfl) stack
theorem pnPL : ∀ (numToStr : Rat → String) (parseFl : String → Rat)
    (cs : List Shape) (hne : cs ≠ []),
    codecOKBL numToStr parseFl cs = true →
    ∀ (K : List NTok), (K = [] ∨ ∃ c K2, K = NTok.dl c :: K2) →
    ∀ (prev0 : Option String), (prev0 = some "(" ∨ prev0 = some ",") →
    ∀ (fi : String) (fl : Rat) (fk : List Shape) (stack : List PCur),
    pnGo parseFl (splitToks (toNewickToksL numToStr cs ++ K)) prev0
        ("", 0, []) ((fi, fl, fk) :: stack) =
      pnGo parseFl ((splitToks K).tail) none
        ((cs.getLast hne).id, (cs.getLast hne).length,
          (cs.getLast hne).children)
        ((fi, fl, fk ++ cs.dropLast) :: stack)
  | numToStr, parseFl, [] => by
    intro hne
    exact absurd rfl hne
  | numToStr, parseFl, [c] => by
    intro hne hcodec K hK prev0 hprev fi fl fk stack
    rw [codecOKBL] at hcodec
    simp only [Bool.and_eq_true] at hcodec
    have h1 : toNewickToksL numToStr [c] = toNewickToks numToStr true c := rfl
    rw [h1]
    have h2 := pnP numToStr parseFl c hcodec.1 K hK prev0
      (by rcases hprev with h | h
          · exact Or.inl h
          · exact Or.inr (Or.inl h)) ((fi, fl, fk) :: stack)
    rw [h2]
    have h3 : ([c].getLast hne) = c := rfl
    have h4 : ([c] : List Shape).dropLast = [] := rfl
    rw [h3, h4, List.append_nil]
  | numToStr, parseFl, c :: c2 :: rest => by
    intro hne hcodec K hK prev0 hprev fi fl fk stack
    rw [codecOKBL] at hcodec
    simp only [Bool.and_eq_true] at hcodec
    have h1 : toNewickToksL numToStr (c :: c2 :: rest) ++ K =
        toNewickToks numToStr true c ++
          (NTok.dl ',' :: (toNewickToksL numToStr (c2 :: rest) ++ K)) := by
      have h0 : toNewickToksL numToStr (c :: c2 :: rest) =
          toNewickToks numToStr true c ++
            NTok.dl ',' :: toNewickToksL numToStr (c2 :: rest) := rfl
      rw [h0]
      simp [List.append_assoc]
    rw [h1]
    rw [pnP numToStr parseFl c hcodec.1
      (NTok.dl ',' :: (toNewickToksL numToStr (c2 :: rest) ++ K))
      (Or.inr ⟨',', _, rfl⟩) prev0
      (by rcases hprev with h | h
          · exact Or.inl h
          · exact Or.inr (Or.inl h)) ((fi, fl, fk) :: stack)]
    have h2 : (splitToks (NTok.dl ',' ::
        (toNewickToksL numToStr (c2 :: rest) ++ K))).tail =
        "," :: splitToks (toNewickToksL numToStr (c2 :: rest) ++ K) := rfl
    rw [h2, pnGo_comma_cons]
    have h3 : Shape.node (c.id) (c.length) (c.children) = c := Shape.eta c
    rw [h3]
    have hne2 : (c2 :: rest : List Shape) ≠ [] := by simp
    rw [pnPL numToStr parseFl (c2 :: rest) hne2 hcodec.2 K hK (some ",")
      (Or.inr rfl) fi fl (fk ++ [c]) stack]
    have h5 : (c :: c2 :: rest).getLast hne = (c2 :: rest).getLast hne2 := rfl
    have h6 : (c :: c2 :: rest).dropLast = c :: (c2 :: rest).dropLast := rfl
    rw [h5, h6]
    have h7 : fk ++ [c] ++ (c2 :: rest).dropLast =
        fk ++ c :: (c2 :: rest).dropLast := by simp
    rw [h7]
end

theorem splitToks_headD_tail (ts : List NTok) :
    (splitToks ts).headD "" :: (splitToks ts).tail = splitToks ts := by
  cases hsp : splitToks ts with
  | nil => exact absurd hsp (splitToks_ne ts)
  | cons h t => rfl

/-- C1: the round trip holds for every tree whose root is NOT a leaf,
with clean ids and an exact length codec: `parseNewick(toNewick(T))`
rebuilds exactly the same ids, lengths and topology.  (For a leaf
root, the id is lost — see the counterexample.) -/
theorem c1_roundtrip (numToStr : Rat → String) (parseFl : String → Rat)
    (sh : Shape) (hc : codecOKB numToStr parseFl sh = true)
    (hroot : sh.children.length ≠ 0) :
    parseNewickT parseFl (toNewickSh numToStr false sh) = some sh := by
  rw [parseNewickT, tokenize]
  have hdata : (toNewickSh numToStr false sh).data =
      rnd (toNewickToks numToStr false sh) := toNewickSh_data numToStr false sh
  rw [hdata]
  have hfalse : toNewickToks numToStr false sh =
      toNewickToks numToStr true sh ++ [NTok.dl ';'] := by
    cases sh with
    | node i l cs =>
      rw [toNewickToks, toNewickToks]
      simp [List.append_assoc]
  rw [hfalse]
  have hclean : cleanToks (toNewickToks numToStr true sh ++ [NTok.dl ';']) =
      true := by
    rw [cleanToks_append]
    simp only [Bool.and_eq_true]
    exact ⟨toNewickToks_clean numToStr parseFl true sh hc, by decide⟩
  rw [tokGo_spec _ hclean [] (by simp) false]
  have hmk : String.mk ([] : List Char).reverse ++
      (splitToks (toNewickToks numToStr true sh ++ [NTok.dl ';'])).headD "" =
      (splitToks (toNewickToks numToStr true sh ++ [NTok.dl ';'])).headD "" := by
    exact String.empty_append _
  rw [hmk, splitToks_headD_tail]
  rw [pnP numToStr parseFl sh hc [NTok.dl ';'] (Or.inr ⟨';', [], rfl⟩) none
    (Or.inr (Or.inr ⟨rfl, hroot⟩)) []]
  have htail : (splitToks [NTok.dl ';']).tail = [";", ""] := rfl
  rw [htail]
  have h4a : ¬ (";" : String) = "(" ∧ ¬ (";" : String) = "," ∧
      ¬ (";" : String) = ")" ∧ ¬ (";" : String) = ":" := by decide
  rw [pnGo_text parseFl ";" [""] none (sh.id, sh.length, sh.children) []
    h4a.1 h4a.2.1 h4a.2.2.1 h4a.2.2.2, pnDefault_none]
  have h4b : ¬ ("" : String) = "(" ∧ ¬ ("" : String) = "," ∧
      ¬ ("" : String) = ")" ∧ ¬ ("" : String) = ":" := by decide
  rw [pnGo_text parseFl "" [] (some ";") (sh.id, sh.length, sh.children) []
    h4b.1 h4b.2.1 h4b.2.2.1 h4b.2.2.2,
    pnDefault_other parseFl "" ";" (sh.id, sh.length, sh.children)
      (by decide) (by decide)]
  rw [pnGo_nil]
  rw [Shape.eta sh]

/-- Demo tree for the round trip: a root with two leaves, one with a
nonzero length. -/
def demoSh1 : Shape := .node "r" 0 [.node "A" 2 [], .node "B" 0 []]

/-- C1 witness: the concrete round trip on `demoSh1`, with a codec
that is exact on the one occurring nonzero length. -/
theorem c1_roundtrip_witness :
    codecOKB (fun _ => "2") (fun _ => (2 : Rat)) demoSh1 = true ∧
    demoSh1.children.length ≠ 0 ∧
    parseNewickT (fun _ => (2 : Rat)) (toNewickSh (fun _ => "2") false demoSh1) =
      some demoSh1 :=
  ⟨by decide, by decide, c1_roundtrip (fun _ => "2") (fun _ => (2 : Rat))
    demoSh1 (by decide) (by decide)⟩

end TidyTree
